import Mathlib

/-!
Verification development for the `statify` repository: a symbolic executor and
constraint-based reachability prover for EVM bytecode.

The Rust source is shallowly embedded here:
* z3 bit-vector ASTs become the inductive `BVT` (a numeral constructor plus an
  application constructor for every operator and uninterpreted function).  z3 is
  an external library, so its term constructors are modelled opaquely; the
  `simplify` the source applies after each construction is modelled as constant
  folding for `extract` / `zero_ext` / `concat` (the cases the source relies on
  through `as_u64`) and as the identity elsewhere.
* Fallible Rust code returns `Except RevertReason`; a Rust panic
  (`unwrap`, `todo!`, a failed `assert_eq!`, an out-of-range z3 `extract`, or a
  `u32` subtraction overflow) is modelled as the `none` of an outer `Option`.
* The recursive path explorer `Prover::path` is embedded with an explicit fuel
  parameter that decreases at every recursive re-entry; the development proves
  that fuel `|jumpdests| + 1` is never exhausted, which is exactly the
  termination argument of the source (each re-entry consumes a fresh jumpdest
  from the shared `vdest` set).

File references (`src/...`) point into the Rust repository.
-/

/-- Error type of `src/src/helpers.rs` (`RevertReason`). -/
inductive RevertReason where
  | StackUnderflow
  | StackOverflow
  | Unsat
  | Unknown
deriving Repr, DecidableEq

/-- Result of a Rust computation that may panic: `none` models a panic,
`some (.error e)` a returned `Err(e)`, `some (.ok a)` a returned `Ok(a)`.
Using `ExceptT` gives do-notation the right sequencing (a panic or an `Err`
aborts the rest of the computation, like `?` and unwinding do in Rust). -/
abbrev PRes (α : Type) := ExceptT RevertReason Option α

/-- Lift a Rust `Result` (the `?` operator). -/
def liftE {α : Type} (x : Except RevertReason α) : PRes α := some x

/-- Model of `Option::unwrap`: panics (`none`) on `None`. -/
def unwrapO {α : Type} : Option α → PRes α
  | some a => some (.ok a)
  | none => none

/-- Model of a z3 bit-vector AST. `const w v` is a numeral of bit-width `w`
with value `v` (kept reduced modulo `2 ^ w` by the smart constructors below);
`app0`/`app1`/`app2`/`app3` are any other applications — operators such as
`bvadd`, or uninterpreted functions such as `calldata` — with natural-number
parameters `params` (used by `extract` and `zero_ext`), up to three argument
terms (no z3 application in the source has more), and result width `w`. -/
inductive BVT where
  | const (w : Nat) (v : Nat)
  | app0 (name : String) (params : List Nat) (w : Nat)
  | app1 (name : String) (params : List Nat) (a : BVT) (w : Nat)
  | app2 (name : String) (params : List Nat) (a b : BVT) (w : Nat)
  | app3 (name : String) (params : List Nat) (a b c : BVT) (w : Nat)
deriving Repr, DecidableEq

namespace BVT

/-- Bit-width of a term (z3 `get_size`). -/
def width : BVT → Nat
  | .const w _ => w
  | .app0 _ _ w => w
  | .app1 _ _ _ w => w
  | .app2 _ _ _ _ w => w
  | .app3 _ _ _ _ _ w => w

/-- Model of z3 `is_const`: true for a numeral and for an application of
arity 0 (e.g. the nullary uninterpreted function `origin()`). -/
def isConst : BVT → Bool
  | .const _ _ => true
  | .app0 _ _ _ => true
  | _ => false

/-- Model of z3 `as_u64`: the value of a numeral when it fits in 64 bits. -/
def asU64 : BVT → Option Nat
  | .const _ v => if v < 2 ^ 64 then some v else none
  | _ => none

/-- Model of z3 `simplify`.  The folding the source relies on is performed by
the smart constructors `extractBV` / `zeroExt` / `concatBV`; elsewhere the
simplifier is semantically the identity on the claims proved here. -/
def simplify (t : BVT) : BVT := t

/-- Model of z3 `zero_ext k`: widen by `k` high zero bits. -/
def zeroExt (k : Nat) : BVT → BVT
  | .const w v => .const (w + k) v
  | t => .app1 "zero_ext" [k] t (t.width + k)

/-- Model of z3 `extract hi lo` (bits `lo` to `hi` inclusive).  z3 faults when
`hi ≥ width` or `lo > hi`; that fault is modelled as `none`. -/
def extractBV (hi lo : Nat) (t : BVT) : Option BVT :=
  if hi < t.width ∧ lo ≤ hi then
    match t with
    | .const _ v => some (.const (hi - lo + 1) (v / 2 ^ lo % 2 ^ (hi - lo + 1)))
    | t => some (.app1 "extract" [hi, lo] t (hi - lo + 1))
  else none

/-- Model of z3 `concat` (`self` is the most significant part). -/
def concatBV (a b : BVT) : BVT :=
  match a, b with
  | .const wa va, .const wb vb => .const (wa + wb) (va * 2 ^ wb + vb)
  | a, b => .app2 "concat" [] a b (a.width + b.width)

/-- Shorthand for a 256-bit numeral (`BV::from_u64(ctx, v, 256)` and the
result of `to_bv`). -/
def word (v : Nat) : BVT := .const 256 (v % 2 ^ 256)

end BVT

/-- Big-endian byte-list value, used by `to_bv` of `src/src/helpers.rs`. -/
def bytesBE (l : List Nat) : Nat := l.foldl (fun acc b => acc * 256 + b) 0

/-- Model of `to_bv` (`src/src/helpers.rs`): a push immediate of at most 32
bytes becomes a zero-extended big-endian 256-bit numeral.  The source asserts
`val.len() <= 32` (panic otherwise, modelled as `none`). -/
def to_bv (val : List Nat) : Option BVT :=
  if val.length ≤ 32 then some (.const 256 (bytesBE val % 2 ^ 256)) else none

/-- Model of `bool_to_bv` (`src/src/helpers.rs`): an if-then-else lifting of a
boolean term to a 256-bit 0/1 word.  The boolean operand is recorded as the
application the source builds. -/
def bool_to_bv (name : String) (a b : BVT) : BVT :=
  .app2 name [] a b 256

/-- Stack of `src/src/data/stack.rs` (`Stack`).  The list mirrors the backing
`Vec` exactly: index 0 is the bottom, pushes append at the end. -/
structure Stack where
  data : List BVT
deriving Repr, DecidableEq

namespace Stack

/-- Model of `Stack::new`. -/
def new : Stack := ⟨[]⟩

/-- Model of `Stack::push`: fails with `StackOverflow` at 16 elements,
otherwise appends the simplified value at the end of the `Vec`. -/
def push (s : Stack) (value : BVT) : Except RevertReason Stack :=
  if s.data.length = 16 then .error .StackOverflow
  else .ok ⟨s.data ++ [value.simplify]⟩

/-- Model of `Stack::pop`: removes and returns the last `Vec` element. -/
def pop (s : Stack) : Except RevertReason (BVT × Stack) :=
  match s.data.getLast? with
  | some w => .ok (w, ⟨s.data.dropLast⟩)
  | none => .error .StackUnderflow

/-- Model of `Stack::dupn`: reads `data[n]` — index `n` from the BOTTOM of the
`Vec` — and pushes a copy.  (Note the asymmetry with `Stack::get`, which
counts from the top.) -/
def dupn (s : Stack) (n : Nat) : Except RevertReason Stack :=
  match s.data.get? n with
  | some w => s.push w
  | none => .error .StackUnderflow

/-- Model of `Stack::get`: element at depth `n` counted from the top
(`data[len - n - 1]`), with `checked_sub` failing as `StackUnderflow`. -/
def get (s : Stack) (n : Nat) : Except RevertReason BVT :=
  if n + 1 ≤ s.data.length then
    match s.data.get? (s.data.length - (n + 1)) with
    | some w => .ok w
    | none => .error .StackUnderflow
  else .error .StackUnderflow

/-- Model of `Stack::swapn`: swaps `data[0]` and `data[n]` — both indexed from
the BOTTOM of the `Vec`. -/
def swapn (s : Stack) (n : Nat) : Except RevertReason Stack :=
  match s.data.get? n, s.data.get? 0 with
  | some wn, some w0 => .ok ⟨(s.data.set 0 wn).set n w0⟩
  | _, _ => .error .StackUnderflow

end Stack

/-- Wrapper of `src/src/data/stack.rs` (`EVMStack`). -/
structure EVMStack where
  stack : Stack
deriving Repr, DecidableEq

namespace EVMStack

/-- Model of `EVMStack::new`. -/
def new : EVMStack := ⟨Stack.new⟩

/-- Model of `EVMStack::push`: `assert_eq!(value.get_size(), 256)` panics on a
non-256-bit value (modelled as `none`), then delegates. -/
def push (s : EVMStack) (value : BVT) : PRes EVMStack :=
  if value.width = 256 then some ((s.stack.push value).map (⟨·⟩)) else none

/-- Model of `EVMStack::pop`. -/
def pop (s : EVMStack) : Except RevertReason (BVT × EVMStack) :=
  (s.stack.pop).map (fun p => (p.1, ⟨p.2⟩))

/-- Model of `EVMStack::peek`. -/
def peek (s : EVMStack) (n : Nat) : Except RevertReason BVT :=
  s.stack.get n

/-- Model of `EVMStack::dupn`. -/
def dupn (s : EVMStack) (n : Nat) : Except RevertReason EVMStack :=
  (s.stack.dupn n).map (⟨·⟩)

/-- Model of `EVMStack::swapn`. -/
def swapn (s : EVMStack) (n : Nat) : Except RevertReason EVMStack :=
  (s.stack.swapn n).map (⟨·⟩)

/-- One round of the chunk-check loop of `pop32` / `pop64`: extract bits
`i*k .. (i+1)*k - 1`, simplify, and take `as_u64().unwrap()` — the unwrap
panics (`none`) when the chunk does not simplify to a numeral. -/
def chunkU64 (k : Nat) (val : BVT) (i : Nat) : Option Nat :=
  match BVT.extractBV ((i + 1) * k - 1) (i * k) val with
  | some ex => ex.simplify.asU64
  | none => none

/-- Chunk loop of `pop32`/`pop64` over indices `is` (the source iterates
`(1..hi).rev()`): returns `some true` if some chunk is a nonzero numeral
(→ `Ok(None)` in the source), `some false` if all chunks are zero numerals,
and `none` if any `unwrap` panics. -/
def chunksNonzero (k : Nat) (val : BVT) : List Nat → Option Bool
  | [] => some false
  | i :: rest =>
    match chunkU64 k val i with
    | none => none
    | some v => if v ≠ 0 then some true else chunksNonzero k val rest

/-- Model of `EVMStack::pop64` (`src/src/data/stack.rs` lines 91-102): pop,
check the three high 64-bit chunks, and return the low 64 bits.  Any chunk
that does not simplify to a numeral makes `as_u64().unwrap()` panic. -/
def pop64 (s : EVMStack) : PRes (Option Nat × EVMStack) :=
  match s.pop with
  | .error e => some (.error e)
  | .ok (val, s') =>
    match chunksNonzero 64 val [3, 2, 1] with
    | none => none
    | some true => some (.ok (none, s'))
    | some false =>
      match BVT.extractBV 63 0 val with
      | some low =>
        match low.simplify.asU64 with
        | some v => some (.ok (some v, s'))
        | none => none
      | none => none

/-- Model of `EVMStack::pop32` (`src/src/data/stack.rs` lines 104-122): like
`pop64` with 32-bit chunks; the final `try_into().unwrap()` to `u32` cannot
fail on a 32-bit extract but is modelled faithfully. -/
def pop32 (s : EVMStack) : PRes (Option Nat × EVMStack) :=
  match s.pop with
  | .error e => some (.error e)
  | .ok (val, s') =>
    match chunksNonzero 32 val [7, 6, 5, 4, 3, 2, 1] with
    | none => none
    | some true => some (.ok (none, s'))
    | some false =>
      match BVT.extractBV 31 0 val with
      | some low =>
        match low.simplify.asU64 with
        | some v => if v < 2 ^ 32 then some (.ok (some v, s')) else none
        | none => none
      | none => none

end EVMStack

/-- Memory of `src/src/data/memory.rs` (`Memory`): an optional bit-vector plus
nothing else; offsets at this layer are bit positions. -/
structure Memory where
  data : Option BVT
deriving Repr, DecidableEq

namespace Memory

/-- Model of `Memory::new`. -/
def new : Memory := ⟨none⟩

/-- Model of `Memory::set` (`src/src/data/memory.rs` lines 15-38).  When no
data exists the offset is ignored and the value becomes the whole memory; the
`offset - 1` subtractions are `u32` subtractions that panic at `offset = 0`
(modelled as `none`), and an out-of-range `extract` is a z3 fault (`none`).
(The sibling copy in `src/src/data.rs` differs only in the indices of the
splice arms; no theorem below depends on those arms.) -/
def set (m : Memory) (offset : Nat) (words : BVT) : Option Memory :=
  match m.data with
  | some data =>
    let size := data.width
    let wsize := words.width
    if offset > size then
      let low_data := data.zeroExt (offset - size)
      some ⟨some ((low_data.concatBV words).simplify)⟩
    else if offset + wsize > size then
      if offset = 0 then none
      else
        match BVT.extractBV (offset - 1) 0 data with
        | some low_data => some ⟨some ((low_data.concatBV words).simplify)⟩
        | none => none
    else
      if offset = 0 then none
      else
        match BVT.extractBV (offset - 1) 0 data,
              BVT.extractBV (size - offset) wsize data with
        | some low_data, some up_data =>
          some ⟨some ((low_data.concatBV (words.concatBV up_data)).simplify)⟩
        | _, _ => none
  | none => some ⟨some (words.simplify)⟩

/-- Model of `Memory::get` (`src/src/data/memory.rs` lines 41-56): an empty
range reads a 1-bit zero; otherwise the data (a fresh all-zero vector of width
`hi` when absent) is zero-extended up to `hi` bits, stored back, and bits
`lo .. hi-1` are extracted. -/
def get (m : Memory) (lo hi : Nat) : Option (BVT × Memory) :=
  if lo = hi then some (.const 1 0, m)
  else
    let data := m.data.getD (.const hi 0)
    if hi > data.width then
      let extended := data.zeroExt (hi - data.width)
      (BVT.extractBV (hi - 1) lo extended).map (fun v => (v, ⟨some extended⟩))
    else
      (BVT.extractBV (hi - 1) lo data).map (fun v => (v, ⟨some data⟩))

end Memory

/-- Wrapper of `src/src/data/memory.rs` (`EVMMemory`).  Note that the wrapper
passes EVM byte offsets straight through as bit offsets (no multiplication
by 8 appears in the source). -/
structure EVMMemory where
  memory : Memory
deriving Repr, DecidableEq

namespace EVMMemory

/-- Model of `EVMMemory::new`. -/
def new : EVMMemory := ⟨Memory.new⟩

/-- Model of `EVMMemory::mload`: read the range `off .. off+256`; the
`assert_eq!` on the result width panics (`none`) if it is not 256 bits. -/
def mload (m : EVMMemory) (off : Nat) : Option (BVT × EVMMemory) :=
  match m.memory.get off (off + 256) with
  | some (ret, mem) => if ret.width = 256 then some (ret, ⟨mem⟩) else none
  | none => none

/-- Model of `EVMMemory::mstore`: `assert_eq!(value.get_size(), 256)`, then
delegate to `Memory::set`. -/
def mstore (m : EVMMemory) (offset : Nat) (value : BVT) : Option EVMMemory :=
  if value.width = 256 then (m.memory.set offset value).map (⟨·⟩) else none

/-- Model of `EVMMemory::mbig_load` (the source's `from`/`to` arguments are
renamed `lo`/`hi` here). -/
def mbig_load (m : EVMMemory) (lo hi : Nat) : Option (BVT × EVMMemory) :=
  (m.memory.get lo hi).map (fun p => (p.1, ⟨p.2⟩))

/-- Model of `EVMMemory::mbig_store`. -/
def mbig_store (m : EVMMemory) (offset : Nat) (value : BVT) : Option EVMMemory :=
  (m.memory.set offset value).map (⟨·⟩)

end EVMMemory

/-- Storage of `src/src/data/storage.rs` (`EVMStorage`): a map from key terms
to value terms, modelled as an association list. -/
structure EVMStorage where
  map : List (BVT × BVT)
deriving Repr, DecidableEq

namespace EVMStorage

/-- Model of `EVMStorage::sstore` (`src/src/data/storage.rs` lines 15-26):
after the two width assertions the body only computes `key.bvurem(32)` into a
dead local — every insertion is commented out — so the map is returned
UNCHANGED.  (No `sload` exists anywhere in the source.) -/
def sstore (s : EVMStorage) (key value : BVT) : Option EVMStorage :=
  if key.width = 256 ∧ value.width = 256 then some s else none

end EVMStorage

/-- Opcode kinds of `src/src/opcodes.rs` (`OpCodes`). -/
inductive OpCodes where
  | Invalid
  | Stop
  | Add
  | Mul
  | Sub
  | Div
  | Sdiv
  | Mod
  | Smod
  | Addmod
  | Mulmod
  | Exp
  | Signextend
  | Lt
  | Gt
  | Slt
  | Sgt
  | Eq
  | Iszero
  | And
  | Or
  | Xor
  | Not
  | Byte
  | Shl
  | Shr
  | Sar
  | Sha3
  | Address
  | Balance
  | Origin
  | Caller
  | Callvalue
  | Calldataload
  | Calldatasize
  | Calldatacopy
  | Codesize
  | Codecopy
  | Gasprice
  | Extcodesize
  | Extcodecopy
  | Returndatasize
  | Returndatacopy
  | Extcodehash
  | Blockhash
  | Coinbase
  | Timestamp
  | Number
  | Difficulty
  | Gaslimit
  | Chainid
  | Selfbalance
  | Basefee
  | Pop
  | Mload
  | Mstore
  | Mstore8
  | Sload
  | Sstore
  | Jump
  | Jumpi
  | Pc
  | Msize
  | Gas
  | Jumpdest
  | Push0
  | Push1
  | Push2
  | Push3
  | Push4
  | Push5
  | Push6
  | Push7
  | Push8
  | Push9
  | Push10
  | Push11
  | Push12
  | Push13
  | Push14
  | Push15
  | Push16
  | Push17
  | Push18
  | Push19
  | Push20
  | Push21
  | Push22
  | Push23
  | Push24
  | Push25
  | Push26
  | Push27
  | Push28
  | Push29
  | Push30
  | Push31
  | Push32
  | Dup1
  | Dup2
  | Dup3
  | Dup4
  | Dup5
  | Dup6
  | Dup7
  | Dup8
  | Dup9
  | Dup10
  | Dup11
  | Dup12
  | Dup13
  | Dup14
  | Dup15
  | Dup16
  | Swap1
  | Swap2
  | Swap3
  | Swap4
  | Swap5
  | Swap6
  | Swap7
  | Swap8
  | Swap9
  | Swap10
  | Swap11
  | Swap12
  | Swap13
  | Swap14
  | Swap15
  | Swap16
  | Log0
  | Log1
  | Log2
  | Log3
  | Log4
  | Create
  | Call
  | Callcode
  | Return
  | Delegatecall
  | Create2
  | Staticcall
  | Revert
  | Selfdestruct
deriving Repr, DecidableEq

/-- Rows 0x00-0x3f of `OPCODE_JUMPMAP` (`src/src/opcodes.rs`). -/
def OPCODE_JUMPMAP_0 : List OpCodes :=
  [OpCodes.Stop, OpCodes.Add, OpCodes.Mul, OpCodes.Sub,
   OpCodes.Div, OpCodes.Sdiv, OpCodes.Mod, OpCodes.Smod,
   OpCodes.Addmod, OpCodes.Mulmod, OpCodes.Exp, OpCodes.Signextend,
   OpCodes.Invalid, OpCodes.Invalid, OpCodes.Invalid, OpCodes.Invalid,
   OpCodes.Lt, OpCodes.Gt, OpCodes.Slt, OpCodes.Sgt,
   OpCodes.Eq, OpCodes.Iszero, OpCodes.And, OpCodes.Or,
   OpCodes.Xor, OpCodes.Not, OpCodes.Byte, OpCodes.Shl,
   OpCodes.Shr, OpCodes.Sar, OpCodes.Invalid, OpCodes.Invalid,
   OpCodes.Sha3, OpCodes.Invalid, OpCodes.Invalid, OpCodes.Invalid,
   OpCodes.Invalid, OpCodes.Invalid, OpCodes.Invalid, OpCodes.Invalid,
   OpCodes.Invalid, OpCodes.Invalid, OpCodes.Invalid, OpCodes.Invalid,
   OpCodes.Invalid, OpCodes.Invalid, OpCodes.Invalid, OpCodes.Invalid,
   OpCodes.Address, OpCodes.Balance, OpCodes.Origin, OpCodes.Caller,
   OpCodes.Callvalue, OpCodes.Calldataload, OpCodes.Calldatasize, OpCodes.Calldatacopy,
   OpCodes.Codesize, OpCodes.Codecopy, OpCodes.Gasprice, OpCodes.Extcodesize,
   OpCodes.Extcodecopy, OpCodes.Returndatasize, OpCodes.Returndatacopy, OpCodes.Extcodehash]

/-- Rows 0x40-0x7f of `OPCODE_JUMPMAP` (`src/src/opcodes.rs`). -/
def OPCODE_JUMPMAP_1 : List OpCodes :=
  [OpCodes.Blockhash, OpCodes.Coinbase, OpCodes.Timestamp, OpCodes.Number,
   OpCodes.Difficulty, OpCodes.Gaslimit, OpCodes.Chainid, OpCodes.Selfbalance,
   OpCodes.Basefee, OpCodes.Invalid, OpCodes.Invalid, OpCodes.Invalid,
   OpCodes.Invalid, OpCodes.Invalid, OpCodes.Invalid, OpCodes.Invalid,
   OpCodes.Pop, OpCodes.Mload, OpCodes.Mstore, OpCodes.Mstore8,
   OpCodes.Sload, OpCodes.Sstore, OpCodes.Jump, OpCodes.Jumpi,
   OpCodes.Pc, OpCodes.Msize, OpCodes.Gas, OpCodes.Jumpdest,
   OpCodes.Invalid, OpCodes.Invalid, OpCodes.Invalid, OpCodes.Push0,
   OpCodes.Push1, OpCodes.Push2, OpCodes.Push3, OpCodes.Push4,
   OpCodes.Push5, OpCodes.Push6, OpCodes.Push7, OpCodes.Push8,
   OpCodes.Push9, OpCodes.Push10, OpCodes.Push11, OpCodes.Push12,
   OpCodes.Push13, OpCodes.Push14, OpCodes.Push15, OpCodes.Push16,
   OpCodes.Push17, OpCodes.Push18, OpCodes.Push19, OpCodes.Push20,
   OpCodes.Push21, OpCodes.Push22, OpCodes.Push23, OpCodes.Push24,
   OpCodes.Push25, OpCodes.Push26, OpCodes.Push27, OpCodes.Push28,
   OpCodes.Push29, OpCodes.Push30, OpCodes.Push31, OpCodes.Push32]

/-- Rows 0x80-0xbf of `OPCODE_JUMPMAP` (`src/src/opcodes.rs`). -/
def OPCODE_JUMPMAP_2 : List OpCodes :=
  [OpCodes.Dup1, OpCodes.Dup2, OpCodes.Dup3, OpCodes.Dup4,
   OpCodes.Dup5, OpCodes.Dup6, OpCodes.Dup7, OpCodes.Dup8,
   OpCodes.Dup9, OpCodes.Dup10, OpCodes.Dup11, OpCodes.Dup12,
   OpCodes.Dup13, OpCodes.Dup14, OpCodes.Dup15, OpCodes.Dup16,
   OpCodes.Swap1, OpCodes.Swap2, OpCodes.Swap3, OpCodes.Swap4,
   OpCodes.Swap5, OpCodes.Swap6, OpCodes.Swap7, OpCodes.Swap8,
   OpCodes.Swap9, OpCodes.Swap10, OpCodes.Swap11, OpCodes.Swap12,
   OpCodes.Swap13, OpCodes.Swap14, OpCodes.Swap15, OpCodes.Swap16,
   OpCodes.Log0, OpCodes.Log1, OpCodes.Log2, OpCodes.Log3,
   OpCodes.Log4, OpCodes.Invalid, OpCodes.Invalid, OpCodes.Invalid,
   OpCodes.Invalid, OpCodes.Invalid, OpCodes.Invalid, OpCodes.Invalid,
   OpCodes.Invalid, OpCodes.Invalid, OpCodes.Invalid, OpCodes.Invalid,
   OpCodes.Invalid, OpCodes.Invalid, OpCodes.Invalid, OpCodes.Invalid,
   OpCodes.Invalid, OpCodes.Invalid, OpCodes.Invalid, OpCodes.Invalid,
   OpCodes.Invalid, OpCodes.Invalid, OpCodes.Invalid, OpCodes.Invalid,
   OpCodes.Invalid, OpCodes.Invalid, OpCodes.Invalid, OpCodes.Invalid]

/-- Rows 0xc0-0xff of `OPCODE_JUMPMAP` (`src/src/opcodes.rs`). -/
def OPCODE_JUMPMAP_3 : List OpCodes :=
  [OpCodes.Invalid, OpCodes.Invalid, OpCodes.Invalid, OpCodes.Invalid,
   OpCodes.Invalid, OpCodes.Invalid, OpCodes.Invalid, OpCodes.Invalid,
   OpCodes.Invalid, OpCodes.Invalid, OpCodes.Invalid, OpCodes.Invalid,
   OpCodes.Invalid, OpCodes.Invalid, OpCodes.Invalid, OpCodes.Invalid,
   OpCodes.Invalid, OpCodes.Invalid, OpCodes.Invalid, OpCodes.Invalid,
   OpCodes.Invalid, OpCodes.Invalid, OpCodes.Invalid, OpCodes.Invalid,
   OpCodes.Invalid, OpCodes.Invalid, OpCodes.Invalid, OpCodes.Invalid,
   OpCodes.Invalid, OpCodes.Invalid, OpCodes.Invalid, OpCodes.Invalid,
   OpCodes.Invalid, OpCodes.Invalid, OpCodes.Invalid, OpCodes.Invalid,
   OpCodes.Invalid, OpCodes.Invalid, OpCodes.Invalid, OpCodes.Invalid,
   OpCodes.Invalid, OpCodes.Invalid, OpCodes.Invalid, OpCodes.Invalid,
   OpCodes.Invalid, OpCodes.Invalid, OpCodes.Invalid, OpCodes.Invalid,
   OpCodes.Create, OpCodes.Call, OpCodes.Callcode, OpCodes.Return,
   OpCodes.Delegatecall, OpCodes.Create2, OpCodes.Invalid, OpCodes.Invalid,
   OpCodes.Invalid, OpCodes.Invalid, OpCodes.Staticcall, OpCodes.Invalid,
   OpCodes.Invalid, OpCodes.Revert, OpCodes.Invalid, OpCodes.Selfdestruct]

/-- Model of the 256-entry array `OPCODE_JUMPMAP` (`src/src/opcodes.rs`),
index = byte value, assembled from its four 64-entry rows. -/
def OPCODE_JUMPMAP : List OpCodes :=
  OPCODE_JUMPMAP_0 ++ OPCODE_JUMPMAP_1 ++ OPCODE_JUMPMAP_2 ++ OPCODE_JUMPMAP_3

/-- Model of `OpCode` (`src/src/opcodes.rs`): a newtype over the raw byte.
It is represented here directly by the byte (a `Nat`; `u8` in the source). -/
abbrev OpCode := Nat

namespace OpCode

/-- Model of `OpCode::opcode`: `OPCODE_JUMPMAP.get(byte).unwrap()` — the
index is a `u8`, so the lookup never fails; bytes above 255 cannot occur and
default to `Invalid` to keep the model total. -/
def opcode (b : OpCode) : OpCodes := OPCODE_JUMPMAP.getD b .Invalid

/-- Model of `OpCode::is_push` (`0x5f ..= 0x7f`). -/
def is_push (b : OpCode) : Bool := 95 ≤ b ∧ b < 128

/-- Model of `OpCode::is_dup` (`0x80 ..= 0x8f`). -/
def is_dup (b : OpCode) : Bool := 128 ≤ b ∧ b < 144

/-- Model of `OpCode::is_swap` (`0x90 ..= 0x9f`). -/
def is_swap (b : OpCode) : Bool := 144 ≤ b ∧ b < 160

/-- Model of `OpCode::push_size`. -/
def push_size (b : OpCode) : Option Nat :=
  if b.is_push then some (b - 95) else none

/-- Model of `OpCode::dup_size`. -/
def dup_size (b : OpCode) : Option Nat :=
  if b.is_dup then some (b - 128 + 1) else none

/-- Model of `OpCode::swap_size`. -/
def swap_size (b : OpCode) : Option Nat :=
  if b.is_swap then some (b - 144 + 1) else none

end OpCode

/-- Model of `get_slice` (`src/src/utils.rs`): the sub-slice `v[s..e]`,
truncated at the end of `v`, empty when `s` is out of range. -/
def get_slice (v : List Nat) (s e : Nat) : List Nat :=
  if e ≤ v.length then (v.drop s).take (e - s)
  else if s < v.length then v.drop s
  else []

/-- Instruction record of `src/src/bytecode.rs` (`Mnemonic`): program counter,
raw opcode byte and push-immediate bytes. -/
structure Mnemonic where
  pc : Nat
  op : OpCode
  pushes : List Nat
deriving Repr, DecidableEq

/-- Model of `Mnemonic::opcode`. -/
def Mnemonic.opcode (m : Mnemonic) : OpCodes := m.op.opcode

/-- Loop of `to_mnemonics` (`src/src/bytecode.rs` lines 30-58), with a fuel
parameter for structural recursion: the source loop advances `pc` by at least
one byte per iteration, so fuel `|bytecode| + 1` (supplied by `to_mnemonics`)
is never exhausted — `to_mnemonics_go_spec` below proves the fuel-independent
characterisation. -/
def to_mnemonics_go (bytecode : List Nat) : Nat → Nat → List Mnemonic
  | 0, _ => []
  | fuel + 1, pc =>
    match bytecode.get? pc with
    | none => []
    | some b =>
      match OpCode.push_size b with
      | some push_size =>
        let pushes := get_slice bytecode (pc + 1) (pc + 1 + push_size)
        { pc := pc, op := b, pushes := pushes } ::
          to_mnemonics_go bytecode fuel (pc + push_size + 1)
      | none =>
        { pc := pc, op := b, pushes := [] } ::
          to_mnemonics_go bytecode fuel (pc + 1)

/-- Model of `to_mnemonics` (`src/src/bytecode.rs`): linear decode of a byte
sequence into instruction records. -/
def to_mnemonics (bytecode : List Nat) : List Mnemonic :=
  to_mnemonics_go bytecode (bytecode.length + 1) 0

/-- Model of `get_jumpdest` (`src/src/analysis.rs` lines 16-24): the pcs of
all decoded `JUMPDEST` instructions. -/
def get_jumpdest (code : List Mnemonic) : List Nat :=
  (code.filter (fun mn => mn.op.opcode = OpCodes.Jumpdest)).map (·.pc)

/-- Return-state record of `src/src/prover.rs` (`Ret`): optional return value,
`returned` flag (`ret`) and `reverted` flag (`rev`). -/
structure Ret where
  val : Option BVT
  ret : Bool
  rev : Bool
deriving Repr, DecidableEq

namespace Ret

/-- Model of `Default::default()` for `Ret`. -/
def new : Ret := ⟨none, false, false⟩

/-- Model of `Ret::has_ret`. -/
def has_ret (r : Ret) : Bool := r.ret || r.rev

end Ret

/-- Prover step of `src/src/prover.rs` (`Step`): the instruction just
executed, the stack, the memory and the return record. -/
structure Step where
  op : Mnemonic
  stack : EVMStack
  memory : EVMMemory
  ret : Ret
deriving Repr, DecidableEq

namespace Prover

/-- Binary z3 bit-vector operator applied to two stack words (e.g. `bvadd`);
z3 keeps the operand width. -/
def bvop2 (name : String) (a b : BVT) : BVT := .app2 name [] a b a.width

/-- Unary z3 bit-vector operator (e.g. `bvnot`). -/
def bvop1 (name : String) (a : BVT) : BVT := .app1 name [] a a.width

/-- Model of `Prover::sha3` (`src/src/prover.rs` lines 482-491): apply an
uninterpreted function, parameterised by the argument width, to the memory
slice. -/
def sha3 (part : BVT) : BVT := .app1 "sha3" [] part 256

/-- Model of `Prover::ret` (`src/src/prover.rs` lines 432-446): peek the
length at stack depth 1; a syntactically-zero length clears `ret.val`;
otherwise the length is unwrapped to a `u64` (panicking on a symbolic term),
cast `as u32`, the offset popped via `pop32().unwrap()`, the length word
popped, and the memory slice stored into `ret.val`.  NOTE the source sets no
`returned` flag here. -/
def ret (step : Step) : PRes Step := do
  let len ← liftE (step.stack.peek 1)
  if len = BVT.const 256 0 then
    pure { step with ret := { step.ret with val := none } }
  else do
    let lenU ← unwrapO len.asU64
    let len32 := lenU % 2 ^ 32
    let (offOpt, s1) ← step.stack.pop32
    let off ← unwrapO offOpt
    let (_, s2) ← liftE s1.pop
    if off + len32 < 2 ^ 32 then do
      let (retv, mem) ← unwrapO (step.memory.mbig_load off (off + len32))
      pure { step with stack := s2, memory := mem,
                       ret := { step.ret with val := some retv } }
    else none

/-- Model of `Prover::code_copy` (`src/src/prover.rs` lines 448-479): a fresh
`codecopy` uninterpreted function of result width `size` applied to the
address and the concrete offset and size, stored at `dest_off`. -/
def code_copy (addr : BVT) (dest_off off size : Nat) (step : Step) :
    PRes Step := do
  let code := BVT.app3 "codecopy" [] addr (.const 256 off) (.const 256 size) size
  let mem ← unwrapO (step.memory.mbig_store dest_off code)
  pure { step with memory := mem }

/-- Helper for the many `step.stack.pop()?` patterns. -/
def popW (step : Step) : PRes (BVT × Step) := do
  let (a, s) ← liftE step.stack.pop
  pure (a, { step with stack := s })

/-- Helper for the many `step.stack.push(..)?` patterns. -/
def pushW (step : Step) (v : BVT) : PRes Step := do
  let s ← step.stack.push v
  pure { step with stack := s }

/-- Helper for the `step.stack.pop32()?.unwrap()` patterns. -/
def pop32U (step : Step) : PRes (Nat × Step) := do
  let (vOpt, s) ← step.stack.pop32
  let v ← unwrapO vOpt
  pure (v, { step with stack := s })

/-- Pop two operands and push a binary operator application. -/
def binArith (name : String) (step : Step) : PRes Step := do
  let (a, s1) ← popW step
  let (b, s2) ← popW s1
  pushW s2 (bvop2 name a b)

/-- Pop two operands and push the 256-bit 0/1 lifting of a boolean operator
(`bool_to_bv(ctx, a.op(b))`). -/
def binCmp (name : String) (step : Step) : PRes Step := do
  let (a, s1) ← popW step
  let (b, s2) ← popW s1
  pushW s2 (bool_to_bv name a b)

/-- Arms of the `match opcode` of `Prover::step` (`src/src/prover.rs` lines
145-425).  Arms appear in source order; opcodes the source does not match
fall into the final `op => todo!(..)` arm, which panics (`none`).  The
`ctx`/`sym` parameters of the source are ambient here: the uninterpreted
functions of `Symbolic::new` are identified by name. -/
def step_arms (step : Step) (instruction : Mnemonic) : PRes Step := do
  match instruction.op.opcode with
  | .Stop => pure step
  | .Add => binArith "bvadd" step
  | .Mul => binArith "bvmul" step
  | .Sub => binArith "bvsub" step
  | .Div => binArith "bvudiv" step
  | .Sdiv => binArith "bvsdiv" step
  | .Mod => binArith "bvurem" step
  | .Smod => binArith "bvsmod" step
  | .Addmod => do
    let (a, s1) ← popW step
    let (b, s2) ← popW s1
    let (n, s3) ← popW s2
    pushW s3 (bvop2 "bvurem" (bvop2 "bvadd" a b) n)
  | .Mulmod => do
    let (a, s1) ← popW step
    let (b, s2) ← popW s1
    let (n, s3) ← popW s2
    pushW s3 (bvop2 "bvurem" (bvop2 "bvmul" a b) n)
  | .Signextend => do
    let (a, s1) ← popW step
    let (b, s2) ← pop32U s1
    pushW s2 (BVT.app1 "sign_ext" [b] a (a.width + b))
  | .Lt => binCmp "bvult" step
  | .Gt => binCmp "bvugt" step
  | .Slt => binCmp "bvslt" step
  | .Sgt => binCmp "bvsgt" step
  | .Eq => binCmp "eq" step
  | .Iszero => do
    let (a, s1) ← popW step
    pushW s1 (BVT.app1 "iszero" [] a 256)
  | .And => binArith "bvand" step
  | .Or => binArith "bvor" step
  | .Xor => binArith "bvxor" step
  | .Not => do
    let (a, s1) ← popW step
    pushW s1 (bvop1 "bvnot" a)
  | .Byte => do
    let (i, s1) ← popW step
    let (xOpt, s2) ← s1.stack.pop32
    let s2' := { s1 with stack := s2 }
    let res ← match xOpt with
      | some x =>
        if x < 2 ^ 32 - 1 - 32 then unwrapO (BVT.extractBV (x + 255) x i)
        else pure (BVT.const 256 0)
      | none => pure (BVT.const 256 0)
    pushW s2' res
  | .Shl => do
    let (shift, s1) ← popW step
    let (value, s2) ← popW s1
    pushW s2 (bvop2 "bvshl" value shift)
  | .Shr => do
    let (shift, s1) ← popW step
    let (value, s2) ← popW s1
    pushW s2 (bvop2 "bvlshr" value shift)
  | .Sar => do
    let (a, s1) ← popW step
    let (b, s2) ← popW s1
    pushW s2 (bvop2 "bvashr" a b)
  | .Sha3 => do
    let (off, s1) ← pop32U step
    let (size, s2) ← pop32U s1
    if off + size < 2 ^ 32 then do
      let (part, mem) ← unwrapO (s2.memory.mbig_load off (off + size))
      pushW { s2 with memory := mem } (sha3 part)
    else none
  | .Address => pushW step (.app0 "address" [] 256)
  | .Balance => do
    let (address, s1) ← popW step
    pushW s1 (BVT.app1 "balance_of" [] address 256)
  | .Origin => pushW step (.app0 "origin" [] 256)
  | .Caller => pushW step (BVT.app1 "caller" [] (.const 256 0) 256)
  | .Callvalue => pushW step (.const 256 0)
  | .Calldataload => do
    let (off, s1) ← popW step
    pushW s1 ((BVT.app1 "calldata" [] off 256).simplify)
  | .Calldatasize => pushW step (.app0 "calldatasize" [] 256)
  | .Codesize =>
    pushW step (BVT.app1 "codesize" [] (.app0 "address" [] 256) 256)
  | .Codecopy => do
    let addr := BVT.app0 "address" [] 256
    let (dest_off, s1) ← pop32U step
    let (off, s2) ← pop32U s1
    let (size, s3) ← pop32U s2
    code_copy addr dest_off off size s3
  | .Gasprice => pushW step (.app0 "gasprice" [] 256)
  | .Extcodesize => do
    let (address, s1) ← popW step
    pushW s1 (BVT.app1 "codesize" [] address 256)
  | .Extcodecopy => do
    let (addr, s1) ← popW step
    let (dest_off, s2) ← pop32U s1
    let (off, s3) ← pop32U s2
    let (size, s4) ← pop32U s3
    code_copy addr dest_off off size s4
  | .Returndatasize =>
    pushW step (.const 256 ((step.ret.val.map BVT.width).getD 0))
  | .Push0 | .Push1 | .Push2 | .Push3 | .Push4 | .Push5 | .Push6 | .Push7
  | .Push8 | .Push9 | .Push10 | .Push11 | .Push12 | .Push13 | .Push14
  | .Push15 | .Push16 | .Push17 | .Push18 | .Push19 | .Push20 | .Push21
  | .Push22 | .Push23 | .Push24 | .Push25 | .Push26 | .Push27 | .Push28
  | .Push29 | .Push30 | .Push31 | .Push32 => do
    let v ← unwrapO (to_bv instruction.pushes)
    pushW step v
  | .Dup1 | .Dup2 | .Dup3 | .Dup4 | .Dup5 | .Dup6 | .Dup7 | .Dup8
  | .Dup9 | .Dup10 | .Dup11 | .Dup12 | .Dup13 | .Dup14 | .Dup15 | .Dup16 => do
    let dup_size ← unwrapO instruction.op.dup_size
    let s1 ← liftE (step.stack.dupn (dup_size - 1))
    pure { step with stack := s1 }
  | .Swap1 | .Swap2 | .Swap3 | .Swap4 | .Swap5 | .Swap6 | .Swap7 | .Swap8
  | .Swap9 | .Swap10 | .Swap11 | .Swap12 | .Swap13 | .Swap14 | .Swap15
  | .Swap16 => do
    let swap ← unwrapO instruction.op.swap_size
    let s1 ← liftE (step.stack.swapn (swap - 1))
    pure { step with stack := s1 }
  | .Pop => do
    let (_, s1) ← popW step
    pure s1
  | .Mload => do
    let (off, s1) ← pop32U step
    let (mem, m1) ← unwrapO (s1.memory.mload off)
    pushW { s1 with memory := m1 } mem
  | .Mstore => do
    let (off, s1) ← pop32U step
    let (val, s2) ← popW s1
    let m1 ← unwrapO (s2.memory.mstore off val)
    pure { s2 with memory := m1 }
  | .Return => ret step
  | .Revert => do
    let s1 ← ret step
    pure { s1 with ret := { s1.ret with rev := true } }
  | .Invalid => pure { step with ret := { step.ret with rev := true } }
  | .Jumpdest => pure step
  | .Jump => do
    let (_, s1) ← popW step
    pure s1
  | .Jumpi => do
    let (_, s1) ← popW step
    let (_, s2) ← popW s1
    pure s2
  | _ => none

/-- Model of `Prover::step` (`src/src/prover.rs` lines 133-430): set
`step.op = instruction` (line 140), then run the opcode arm.  No arm of the
source ever touches `op` again; the model restates the field on the result so
that this source invariant is available definitionally. -/
def step (last_step : Step) (instruction : Mnemonic) : PRes Step := do
  let s ← step_arms { last_step with op := instruction } instruction
  pure { s with op := instruction }

theorem step_op (stp : Step) (i : Mnemonic) (s2 : Step)
    (h : Prover.step stp i = some (.ok s2)) : s2.op = i := by
  unfold Prover.step at h
  cases ha : step_arms { stp with op := i } i with
  | none =>
    rw [ha] at h
    exact Option.noConfusion h
  | some x =>
    cases x with
    | error e =>
      rw [ha] at h
      simp [ExceptT.run, Bind.bind, ExceptT.bind, ExceptT.bindCont, ExceptT.mk] at h
      injection h with h1
      exact Except.noConfusion h1
    | ok s =>
      rw [ha] at h
      simp only [ExceptT.run, Bind.bind, ExceptT.bind, ExceptT.bindCont, ExceptT.mk,
        Pure.pure, ExceptT.pure, Option.bind_some, Option.some_bind,
        Option.some.injEq, Except.ok.injEq] at h
      injection h with h1
      injection h1 with h2
      rw [← h2]

end Prover

/-- One assertion frame pushed onto the solver before a `check`: the asserted
equality `Int(jd) == dest.to_int(false)` is recorded as the pair of the
jumpdest and the destination term (z3 itself is external, so assertions are
opaque data here). -/
abbrev Cnstr := Nat × BVT

/-- Model of a z3 `Solver`: its current list of assertions. -/
abbrev Solver := List Cnstr

/-- Entry of the tree of `src/src/prover.rs` (`Tree`): solver snapshot and the
ordered step trace of one branch. -/
abbrev TreeEntry := Solver × List Step

/-- Model of `Tree` of `src/src/prover.rs` (`BTreeMap<usize, (Solver,
Vec<Step>)>`), renamed `PTree` (Mathlib already has a `Tree`), as an
association list with unique keys. -/
abbrev PTree := List (Nat × TreeEntry)

/-- Keys of the tree (`tree.keys()`). -/
def treeKeys (t : PTree) : List Nat := t.map (·.1)

/-- Model of `BTreeMap::get` (keys are unique, so the first match is the
entry). -/
def treeGet : PTree → Nat → Option TreeEntry
  | [], _ => none
  | (k', e) :: rest, k => if k' = k then some e else treeGet rest k

/-- Model of the per-instruction bookkeeping of `Prover::path` (lines
610-618): if the branch id is present, append the step and overwrite the
solver snapshot (`get_mut`); otherwise insert a fresh entry with a one-step
trace. -/
def treeUpd : PTree → Nat → Solver → Step → PTree
  | [], k, sol, st => [(k, (sol, [st]))]
  | (k', e) :: rest, k, sol, st =>
    if k' = k then (k', (sol, e.2 ++ [st])) :: rest
    else (k', e) :: treeUpd rest k sol st

/-- Decision oracle for `sol.check()`: z3 is external, so satisfiability of
an assertion list is a parameter of the whole model. -/
abbrev SatOracle := Solver → Bool

/-- Outcome of a run of the explorer: `crash` models a Rust panic, `fuelOut`
is the artificial out-of-fuel marker (proved unreachable below), `done`
carries the value. -/
inductive RunOut (α : Type) where
  | crash
  | fuelOut
  | done (a : α)
deriving Repr, DecidableEq

/-- Result of one `Prover::path` call: the shared tree and visited list as
mutated so far, and `Ok(next_pid)` or the propagated error.  (In the source
the tree and `vdest` live behind `Rc<RefCell<..>>` / `&mut` and survive an
`Err`; the model therefore returns them in both cases.) -/
abbrev PathOut := PTree × List Nat × Except RevertReason Nat

namespace Prover

/-- The `for jd in jdest` loop inside `Prover::path` (lines 549-573), for a
non-concrete destination: push the solver, assert `dest == jd`, `check`; on
SAT with an unvisited `jd`, mark it visited and recurse (`pcall` is the
recursive `Prover::path` call, abstracted so each function stays structurally
recursive); an `Err` from the recursion is discarded by the `if let Ok`.
The solver is popped afterwards, so `sol` itself never changes. -/
def path_jds (pcall : Nat → PTree → List Nat → Step → Nat → RunOut PathOut)
    (oracle : SatOracle) (sol : Solver) (dest : BVT) (stp : Step) :
    List Nat → Nat → PTree → List Nat → RunOut (Nat × PTree × List Nat)
  | [], pid, tree, vdest => .done (pid, tree, vdest)
  | jd :: rest, pid, tree, vdest =>
    if oracle (sol ++ [(jd, dest)]) ∧ ¬ vdest.contains jd then
      match pcall (pid + 1) tree (vdest ++ [jd]) stp jd with
      | .crash => .crash
      | .fuelOut => .fuelOut
      | .done (tree1, vdest1, .ok p) =>
          path_jds pcall oracle sol dest stp rest p tree1 vdest1
      | .done (tree1, vdest1, .error _) =>
          path_jds pcall oracle sol dest stp rest pid tree1 vdest1
    else path_jds pcall oracle sol dest stp rest pid tree vdest

/-- Branch handling of one instruction inside `Prover::path` (lines
518-606): nothing for a non-jump; for a `JUMP`/`JUMPI` the destination (and
for `JUMPI` the unused condition) are peeked — an `Err` aborts the walk
(`inr`, carrying the unchanged tree state); a symbolic destination is
resolved against every jumpdest via `path_jds`; a concrete `u64` destination
is marked visited and explored only when it is a jumpdest (no revert
otherwise); a numeral too wide for `as_u64` goes through `Prover::ret` and
marks the step reverted.  `inl` carries the updated walker state for the
fall-through. -/
def path_jump (pcall : Nat → PTree → List Nat → Step → Nat → RunOut PathOut)
    (oracle : SatOracle) (jdest : List Nat) (sol : Solver)
    (instruction : Mnemonic) (pid : Nat) (tree : PTree) (vdest : List Nat)
    (stp : Step) : RunOut ((Nat × PTree × List Nat × Step) ⊕ PathOut) :=
  let opc := instruction.op.opcode
  if opc = .Jump ∨ opc = .Jumpi then
    match stp.stack.peek 0 with
    | .error e => .done (.inr (tree, vdest, .error e))
    | .ok dest =>
      match (if opc = .Jumpi then stp.stack.peek 1
             else .ok (BVT.const 256 1) : Except RevertReason BVT) with
      | .error e => .done (.inr (tree, vdest, .error e))
      | .ok _cond =>
        if ¬ dest.isConst then
          match path_jds pcall oracle sol dest stp jdest pid tree vdest with
          | .crash => .crash
          | .fuelOut => .fuelOut
          | .done (pid1, tree1, vdest1) => .done (.inl (pid1, tree1, vdest1, stp))
        else
          match dest.asU64 with
          | some d =>
            if ¬ vdest.contains d then
              if jdest.contains d then
                match pcall (pid + 1) tree (vdest ++ [d]) stp d with
                | .crash => .crash
                | .fuelOut => .fuelOut
                | .done (tree1, vdest1, .ok p) => .done (.inl (p, tree1, vdest1, stp))
                | .done (tree1, vdest1, .error _) => .done (.inl (pid, tree1, vdest1, stp))
              else .done (.inl (pid, tree, vdest ++ [d], stp))
            else .done (.inl (pid, tree, vdest, stp))
          | none =>
            match Prover.ret stp with
            | none => .crash
            | some (.error e) => .done (.inr (tree, vdest, .error e))
            | some (.ok stp1) =>
                .done (.inl (pid, tree, vdest,
                  { stp1 with ret := { stp1.ret with rev := true } }))
  else .done (.inl (pid, tree, vdest, stp))

/-- The `for instruction in code.iter().skip_while(..)` loop of
`Prover::path` (lines 515-624): handle the branch cases via `path_jump`, then
apply `Prover::step` to keep up with the fall-through, record the new step
under `last_pid` (together with the current solver snapshot), and stop
walking once `has_ret` holds. -/
def path_go (pcall : Nat → PTree → List Nat → Step → Nat → RunOut PathOut)
    (oracle : SatOracle) (jdest : List Nat) (sol : Solver) (last_pid : Nat) :
    List Mnemonic → Nat → PTree → List Nat → Step → RunOut PathOut
  | [], pid, tree, vdest, _ => .done (tree, vdest, .ok (pid + 1))
  | instruction :: rest, pid, tree, vdest, stp =>
    match path_jump pcall oracle jdest sol instruction pid tree vdest stp with
    | .crash => .crash
    | .fuelOut => .fuelOut
    | .done (.inr out) => .done out
    | .done (.inl (pid1, tree1, vdest1, stp1)) =>
      match Prover.step stp1 instruction with
      | none => .crash
      | some (.error e) => .done (tree1, vdest1, .error e)
      | some (.ok stp2) =>
        let tree2 := treeUpd tree1 last_pid sol stp2
        if stp2.ret.has_ret then .done (tree2, vdest1, .ok (pid1 + 1))
        else path_go pcall oracle jdest sol last_pid rest pid1 tree2 vdest1 stp2

/-- Model of `Prover::path` (`src/src/prover.rs` lines 494-631).  The solver
of the current branch id is looked up in the tree (a fresh empty solver
otherwise); the walk starts at the first instruction whose pc is not below
`pc`.  `fuel` decreases at every recursive re-entry; since each re-entry
first consumes a fresh jumpdest from `vdest`, fuel `|jumpdests| + 1` is
proved sufficient below (the source recursion terminates for the same
reason). -/
def path (oracle : SatOracle) (jdest : List Nat) (code : List Mnemonic) :
    Nat → Nat → PTree → List Nat → Step → Nat → RunOut PathOut
  | 0, _, _, _, _, _ => .fuelOut
  | fuel + 1, pid, tree, vdest, stp, pc =>
    let sol := match treeGet tree pid with
      | some e => e.1
      | none => []
    path_go (path oracle jdest code fuel) oracle jdest sol pid
      (code.dropWhile (fun ins => ins.pc < pc)) pid tree vdest stp

/-- Model of `Prover::walk` (`src/src/prover.rs` lines 107-131): build the
initial step around `code.first().unwrap()` — a PANIC on empty code — and
run `path` from branch id 0, pc 0, with empty tree and visited list. -/
def walk (oracle : SatOracle) (code : List Mnemonic) :
    RunOut (Except RevertReason (PTree × Nat)) :=
  let jdest := get_jumpdest code
  match code.head? with
  | none => .crash
  | some first =>
    let last_step : Step :=
      { op := first, stack := EVMStack.new, memory := EVMMemory.new, ret := Ret.new }
    match path oracle jdest code (jdest.length + 1) 0 [] [] last_step 0 with
    | .crash => .crash
    | .fuelOut => .fuelOut
    | .done (tree, _, .ok p) => .done (.ok (tree, p))
    | .done (_, _, .error e) => .done (.error e)

/-- Model of `Prover::run` (`src/src/prover.rs` lines 93-104): run `walk` and
return the tree. -/
def run (oracle : SatOracle) (code : List Mnemonic) :
    RunOut (Except RevertReason PTree) :=
  match walk oracle code with
  | .crash => .crash
  | .fuelOut => .fuelOut
  | .done (.ok (tree, _)) => .done (.ok tree)
  | .done (.error e) => .done (.error e)

end Prover

/-! ### Decoder lemmas -/

/-- `get_slice v s (s + n)` is `take n` of `drop s` — in all three branches of
the source. -/
theorem get_slice_eq_take_drop (v : List Nat) (s n : Nat) :
    get_slice v s (s + n) = (v.drop s).take n := by
  unfold get_slice
  rcases le_or_lt (s + n) v.length with h1 | h1
  · simp [h1]
  · rcases lt_or_le s v.length with h2 | h2
    · rw [if_neg (by omega), if_pos h2]
      rw [List.take_of_length_le]
      simp
      omega
    · rw [if_neg (by omega), if_neg (by omega)]
      rw [List.drop_eq_nil_of_le h2, List.take_nil]

/-- Concatenation of opcode byte and immediate per record, over a decode. -/
def mnConcat (l : List Mnemonic) : List Nat :=
  l.foldr (fun m acc => m.op :: (m.pushes ++ acc)) []

/-- Total pc-advance of a decode: `1 +` immediate length per record. -/
def mnAdvance (l : List Mnemonic) : Nat :=
  (l.map (fun m => 1 + m.pushes.length)).sum

@[simp]
theorem mnConcat_nil : mnConcat [] = [] := rfl

@[simp]
theorem mnConcat_cons (m : Mnemonic) (l : List Mnemonic) :
    mnConcat (m :: l) = m.op :: (m.pushes ++ mnConcat l) := rfl

@[simp]
theorem mnAdvance_nil : mnAdvance [] = 0 := rfl

@[simp]
theorem mnAdvance_cons (m : Mnemonic) (l : List Mnemonic) :
    mnAdvance (m :: l) = 1 + m.pushes.length + mnAdvance l := by
  simp [mnAdvance]

/-- Fuel-generalised decoder round trip: with enough fuel, the decode of the
suffix starting at `pc` reproduces `B.drop pc` and advances by
`B.length - pc`. -/
theorem to_mnemonics_go_spec (B : List Nat) :
    ∀ fuel pc, B.length < pc + fuel →
      mnConcat (to_mnemonics_go B fuel pc) = B.drop pc ∧
      mnAdvance (to_mnemonics_go B fuel pc) = B.length - pc := by
  intro fuel
  induction fuel with
  | zero =>
    intro pc h
    refine ⟨?_, ?_⟩
    · simp [to_mnemonics_go, List.drop_eq_nil_of_le (by omega : B.length ≤ pc)]
    · simp [to_mnemonics_go]
      omega
  | succ fuel ih =>
    intro pc h
    cases hb : B.get? pc with
    | none =>
      have hlen : B.length ≤ pc := by
        by_contra hc
        push_neg at hc
        exact absurd hb (by simp [List.get?_eq_getElem?, List.getElem?_eq_getElem hc])
      simp only [to_mnemonics_go, hb]
      refine ⟨?_, ?_⟩
      · simp [List.drop_eq_nil_of_le hlen]
      · simp
        omega
    | some b =>
      have hpc : pc < B.length := by
        by_contra hc
        push_neg at hc
        rw [List.get?_eq_getElem?, List.getElem?_eq_none hc] at hb
        exact Option.noConfusion hb
      have hbv : B[pc] = b := by
        rw [List.get?_eq_getElem?, List.getElem?_eq_getElem hpc] at hb
        exact (Option.some.injEq _ _).mp hb
      have hdrop : B.drop pc = b :: B.drop (pc + 1) := by
        rw [List.drop_eq_getElem_cons hpc, hbv]
      cases hps : OpCode.push_size b with
      | some ps =>
        have ihr := ih (pc + ps + 1) (by omega)
        have hslice := get_slice_eq_take_drop B (pc + 1) ps
        simp only [to_mnemonics_go, hb, hps, mnConcat_cons, mnAdvance_cons]
        refine ⟨?_, ?_⟩
        · rw [ihr.1, hdrop, hslice]
          congr 1
          have hdd : B.drop (pc + ps + 1) = (B.drop (pc + 1)).drop ps := by
            rw [List.drop_drop]
            congr 1
            omega
          rw [hdd]
          exact List.take_append_drop ps (B.drop (pc + 1))
        · rw [ihr.2, hslice]
          have : (List.take ps (B.drop (pc + 1))).length
              = min ps (B.length - (pc + 1)) := by simp
          rw [this]
          omega
      | none =>
        have ihr := ih (pc + 1) (by omega)
        simp only [to_mnemonics_go, hb, hps, mnConcat_cons, mnAdvance_cons]
        refine ⟨?_, ?_⟩
        · rw [ihr.1, hdrop]
          simp
        · rw [ihr.2]
          simp
          omega

/-- Every record produced from position `pc` onward has pc at least `pc`. -/
theorem to_mnemonics_go_pc_ge (B : List Nat) :
    ∀ fuel pc m, m ∈ to_mnemonics_go B fuel pc → pc ≤ m.pc := by
  intro fuel
  induction fuel with
  | zero =>
    intro pc m hm
    simp [to_mnemonics_go] at hm
  | succ fuel ih =>
    intro pc m hm
    cases hb : B.get? pc with
    | none =>
      simp only [to_mnemonics_go, hb] at hm
      simp at hm
    | some b =>
      cases hps : OpCode.push_size b with
      | some ps =>
        simp only [to_mnemonics_go, hb, hps, List.mem_cons] at hm
        rcases hm with hm | hm
        · simp [hm]
        · have := ih (pc + ps + 1) m hm
          omega
      | none =>
        simp only [to_mnemonics_go, hb, hps, List.mem_cons] at hm
        rcases hm with hm | hm
        · simp [hm]
        · have := ih (pc + 1) m hm
          omega

/-- The decoded records have strictly increasing pcs. -/
theorem to_mnemonics_go_sorted (B : List Nat) :
    ∀ fuel pc, (to_mnemonics_go B fuel pc).Pairwise (fun a b => a.pc < b.pc) := by
  intro fuel
  induction fuel with
  | zero =>
    intro pc
    simp [to_mnemonics_go]
  | succ fuel ih =>
    intro pc
    cases hb : B.get? pc with
    | none =>
      simp only [to_mnemonics_go, hb]
      simp
    | some b =>
      cases hps : OpCode.push_size b with
      | some ps =>
        simp only [to_mnemonics_go, hb, hps]
        refine List.Pairwise.cons ?_ (ih (pc + ps + 1))
        intro m hm
        have := to_mnemonics_go_pc_ge B fuel (pc + ps + 1) m hm
        simp
        omega
      | none =>
        simp only [to_mnemonics_go, hb, hps]
        refine List.Pairwise.cons ?_ (ih (pc + 1))
        intro m hm
        have := to_mnemonics_go_pc_ge B fuel (pc + 1) m hm
        simp
        omega

/-- Every jumpdest pc is the pc of some decoded instruction. -/
theorem get_jumpdest_mem_pc (code : List Mnemonic) (j : Nat)
    (hj : j ∈ get_jumpdest code) : ∃ m ∈ code, m.pc = j := by
  unfold get_jumpdest at hj
  rcases List.mem_map.mp hj with ⟨m, hm, hpc⟩
  exact ⟨m, List.mem_of_mem_filter hm, hpc⟩

/-- On a pc-sorted instruction list that contains an instruction at `jd`, the
`skip_while` of `Prover::path` lands exactly on that instruction. -/
theorem dropWhile_head_pc (code : List Mnemonic) (jd : Nat)
    (hs : code.Pairwise (fun a b => a.pc < b.pc))
    (hmem : ∃ m ∈ code, m.pc = jd) :
    ∃ m rest, code.dropWhile (fun ins => ins.pc < jd) = m :: rest ∧ m.pc = jd := by
  induction code with
  | nil =>
    rcases hmem with ⟨m, hm, _⟩
    exact absurd hm (List.not_mem_nil m)
  | cons m0 tail ih =>
    by_cases h0 : m0.pc < jd
    · have hstep : (m0 :: tail).dropWhile (fun ins => ins.pc < jd)
          = tail.dropWhile (fun ins => ins.pc < jd) := by
        simp [List.dropWhile_cons, h0]
      rw [hstep]
      refine ih (List.Pairwise.of_cons hs) ?_
      rcases hmem with ⟨m, hm, hpc⟩
      rcases List.mem_cons.mp hm with rfl | hm'
      · omega
      · exact ⟨m, hm', hpc⟩
    · have hstep : (m0 :: tail).dropWhile (fun ins => ins.pc < jd)
          = m0 :: tail := by
        simp [List.dropWhile_cons, h0]
      refine ⟨m0, tail, hstep, ?_⟩
      rcases hmem with ⟨m, hm, hpc⟩
      rcases List.mem_cons.mp hm with rfl | hm'
      · omega
      · have := (List.pairwise_cons.mp hs).1 m hm'
        omega

/-! ### Explorer invariants -/

/-- Number of jumpdests not yet in the visited list (counted in `jdest`,
whose elements are distinct instruction pcs). -/
def Uc (jdest vdest : List Nat) : Nat :=
  (jdest.filter (fun j => ¬ vdest.contains j)).length

/-- Program counter of the first step recorded under a branch id. -/
def headPcVal (t : PTree) (k : Nat) : Option Nat :=
  match treeGet t k with
  | some e => e.2.head?.map (fun s => s.op.pc)
  | none => none

/-- Well-formedness of the tree: every recorded branch has at least one
step (entries are only ever created with a one-step trace and appended to). -/
def TreeWF (t : PTree) : Prop := ∀ k e, treeGet t k = some e → e.2 ≠ []

theorem Uc_eq_filter (jdest vdest : List Nat) :
    Uc jdest vdest = (jdest.filter (fun j => decide (j ∉ vdest))).length := by
  unfold Uc
  congr 1
  apply List.filter_congr
  intro x _
  simp

theorem filter_notMem_cons_mem (rest vdest : List Nat) (j : Nat) (h : j ∈ vdest) :
    (j :: rest).filter (fun x => decide (x ∉ vdest))
      = rest.filter (fun x => decide (x ∉ vdest)) := by
  simp [List.filter_cons, h]

theorem filter_notMem_cons_notMem (rest vdest : List Nat) (j : Nat) (h : j ∉ vdest) :
    (j :: rest).filter (fun x => decide (x ∉ vdest))
      = j :: rest.filter (fun x => decide (x ∉ vdest)) := by
  simp [List.filter_cons, h]

theorem Uc_mono (jdest vdest vdest' : List Nat)
    (h : ∀ x ∈ vdest, x ∈ vdest') : Uc jdest vdest' ≤ Uc jdest vdest := by
  rw [Uc_eq_filter, Uc_eq_filter]
  induction jdest with
  | nil => simp
  | cons j rest ih =>
    by_cases hj : j ∈ vdest
    · rw [filter_notMem_cons_mem rest vdest j hj]
      by_cases hj' : j ∈ vdest'
      · rw [filter_notMem_cons_mem rest vdest' j hj']
        exact ih
      · exact absurd (h j hj) hj'
    · rw [filter_notMem_cons_notMem rest vdest j hj]
      by_cases hj' : j ∈ vdest'
      · rw [filter_notMem_cons_mem rest vdest' j hj']
        simp only [List.length_cons]
        omega
      · rw [filter_notMem_cons_notMem rest vdest' j hj']
        simp only [List.length_cons]
        omega

theorem Uc_append_lt (jdest vdest : List Nat) (jd : Nat)
    (hjd : jd ∈ jdest) (hfresh : jd ∉ vdest) :
    Uc jdest (vdest ++ [jd]) < Uc jdest vdest := by
  rw [Uc_eq_filter, Uc_eq_filter]
  induction jdest with
  | nil => exact absurd hjd (List.not_mem_nil jd)
  | cons j rest ih =>
    have hmono : (rest.filter (fun x => decide (x ∉ vdest ++ [jd]))).length
        ≤ (rest.filter (fun x => decide (x ∉ vdest))).length := by
      have := Uc_mono rest vdest (vdest ++ [jd]) (by intro x hx; simp [hx])
      rw [Uc_eq_filter, Uc_eq_filter] at this
      exact this
    rcases List.mem_cons.mp hjd with rfl | hjd'
    · have h2 : jd ∈ vdest ++ [jd] := by simp
      rw [filter_notMem_cons_mem rest (vdest ++ [jd]) jd h2,
          filter_notMem_cons_notMem rest vdest jd hfresh]
      simp only [List.length_cons]
      omega
    · by_cases hj : j ∈ vdest
      · have hj2 : j ∈ vdest ++ [jd] := by simp [hj]
        rw [filter_notMem_cons_mem rest (vdest ++ [jd]) j hj2,
            filter_notMem_cons_mem rest vdest j hj]
        exact ih hjd'
      · rw [filter_notMem_cons_notMem rest vdest j hj]
        by_cases hj2 : j ∈ vdest ++ [jd]
        · rw [filter_notMem_cons_mem rest (vdest ++ [jd]) j hj2]
          have := ih hjd'
          simp only [List.length_cons]
          omega
        · rw [filter_notMem_cons_notMem rest (vdest ++ [jd]) j hj2]
          have := ih hjd'
          simp only [List.length_cons]
          omega

theorem Uc_le_length (jdest vdest : List Nat) : Uc jdest vdest ≤ jdest.length := by
  unfold Uc
  exact List.length_filter_le _ _

/-! ### Tree lemmas -/

theorem treeGet_isSome_iff (t : PTree) (k : Nat) :
    (treeGet t k).isSome ↔ k ∈ treeKeys t := by
  induction t with
  | nil => simp [treeGet, treeKeys]
  | cons p rest ih =>
    obtain ⟨k', e⟩ := p
    by_cases h : k' = k
    · subst h
      simp [treeGet, treeKeys]
    · simp only [treeGet, if_neg h, treeKeys, List.map_cons, List.mem_cons]
      rw [ih]
      constructor
      · intro hk
        exact Or.inr hk
      · intro hk
        rcases hk with hk | hk
        · exact absurd hk.symm h
        · exact hk

theorem treeGet_upd_self (t : PTree) (k : Nat) (sol : Solver) (st : Step) :
    treeGet (treeUpd t k sol st) k =
      some (match treeGet t k with
            | some e => (sol, e.2 ++ [st])
            | none => (sol, [st])) := by
  induction t with
  | nil => simp [treeUpd, treeGet]
  | cons p rest ih =>
    obtain ⟨k', e⟩ := p
    by_cases h : k' = k
    · subst h
      simp [treeUpd, treeGet]
    · simp [treeUpd, treeGet, h, ih]

theorem treeGet_upd_other (t : PTree) (k k' : Nat) (sol : Solver) (st : Step)
    (h : k' ≠ k) : treeGet (treeUpd t k sol st) k' = treeGet t k' := by
  have hne : ¬ k = k' := fun hh => h hh.symm
  induction t with
  | nil => simp [treeUpd, treeGet, hne]
  | cons p rest ih =>
    obtain ⟨k0, e⟩ := p
    by_cases h0 : k0 = k
    · subst h0
      simp [treeUpd, treeGet, hne]
    · simp only [treeUpd, if_neg h0]
      by_cases h1 : k0 = k'
      · subst h1
        simp [treeGet]
      · simp [treeGet, h1, ih]

theorem treeKeys_upd (t : PTree) (k : Nat) (sol : Solver) (st : Step) :
    treeKeys (treeUpd t k sol st)
      = if k ∈ treeKeys t then treeKeys t else treeKeys t ++ [k] := by
  induction t with
  | nil => simp [treeUpd, treeKeys]
  | cons p rest ih =>
    obtain ⟨k', e⟩ := p
    by_cases h : k' = k
    · subst h
      simp [treeUpd, treeKeys]
    · have hne : ¬ k = k' := fun hh => h hh.symm
      simp only [treeUpd, if_neg h, treeKeys, List.map_cons] at *
      by_cases hk : k ∈ List.map (fun x => x.1) rest
      · simp [List.mem_cons, hne, hk, ih]
      · simp [List.mem_cons, hne, hk, ih]

theorem TreeWF_upd (t : PTree) (k : Nat) (sol : Solver) (st : Step)
    (h : TreeWF t) : TreeWF (treeUpd t k sol st) := by
  intro k' e' hget
  by_cases hk : k' = k
  · subst hk
    rw [treeGet_upd_self] at hget
    cases hg : treeGet t k' with
    | some e0 =>
      rw [hg] at hget
      simp at hget
      rw [← hget]
      simp
    | none =>
      rw [hg] at hget
      simp at hget
      rw [← hget]
      simp
  · rw [treeGet_upd_other t k k' sol st hk] at hget
    exact h k' e' hget

theorem headPcVal_upd_other (t : PTree) (k k' : Nat) (sol : Solver) (st : Step)
    (h : k' ≠ k) : headPcVal (treeUpd t k sol st) k' = headPcVal t k' := by
  unfold headPcVal
  rw [treeGet_upd_other t k k' sol st h]

theorem headPcVal_upd_present (t : PTree) (k : Nat) (sol : Solver) (st : Step)
    (hWF : TreeWF t) (h : k ∈ treeKeys t) :
    headPcVal (treeUpd t k sol st) k = headPcVal t k := by
  unfold headPcVal
  rw [treeGet_upd_self]
  cases hg : treeGet t k with
  | some e =>
    have hne := hWF k e hg
    cases hd : e.2 with
    | nil => exact absurd hd hne
    | cons s0 srest => simp [hd]
  | none =>
    exact absurd ((treeGet_isSome_iff t k).mpr h) (by simp [hg])

theorem headPcVal_upd_absent (t : PTree) (k : Nat) (sol : Solver) (st : Step)
    (h : k ∉ treeKeys t) :
    headPcVal (treeUpd t k sol st) k = some st.op.pc := by
  unfold headPcVal
  rw [treeGet_upd_self]
  cases hg : treeGet t k with
  | some e =>
    exact absurd ((treeGet_isSome_iff t k).mp (by simp [hg])) h
  | none => simp

/-! ### The explorer contract -/

/-- Relation between the visited list before and after a sub-exploration:
old entries survive, duplicate-freedom is preserved, and the number of
unvisited jumpdests does not grow. -/
def VdOk (jdest vdestIn vdest' : List Nat) : Prop :=
  (∀ x ∈ vdestIn, x ∈ vdest') ∧ (vdestIn.Nodup → vdest'.Nodup) ∧
  Uc jdest vdest' ≤ Uc jdest vdestIn

/-- Relation between the tree before and after a sub-exploration spawned at a
jumpdest: the tree stays well-formed, old branches keep their first recorded
step, every new branch starts at a jumpdest pc, and new branch ids are at
least `lb`. -/
def JKeysOk (jdest : List Nat) (treeIn : PTree) (lb : Nat) (tree' : PTree) : Prop :=
  TreeWF tree' ∧
  (∀ k ∈ treeKeys treeIn, k ∈ treeKeys tree' ∧ headPcVal tree' k = headPcVal treeIn k) ∧
  (∀ k ∈ treeKeys tree', k ∈ treeKeys treeIn ∨ (∃ j ∈ jdest, headPcVal tree' k = some j)) ∧
  (∀ k ∈ treeKeys tree', k ∉ treeKeys treeIn → lb ≤ k)

/-- Like `JKeysOk` but allowing one branch (`ownKey`, the id the walk itself
records under) whose first step is the head of the walked instruction list
instead of a jumpdest. -/
def KeysOk (jdest : List Nat) (treeIn : PTree) (ownKey : Nat) (ownHead : Option Nat)
    (lb : Nat) (tree' : PTree) : Prop :=
  TreeWF tree' ∧
  (∀ k ∈ treeKeys treeIn, k ∈ treeKeys tree' ∧ headPcVal tree' k = headPcVal treeIn k) ∧
  (∀ k ∈ treeKeys tree', k ∈ treeKeys treeIn ∨
     (k = ownKey ∧ headPcVal tree' k = ownHead) ∨
     (∃ j ∈ jdest, headPcVal tree' k = some j)) ∧
  (∀ k ∈ treeKeys tree', k ∉ treeKeys treeIn → lb ≤ k)

theorem VdOk_refl (jdest vdest : List Nat) : VdOk jdest vdest vdest :=
  ⟨fun _ hx => hx, fun h => h, le_refl _⟩

theorem VdOk_trans {jdest v0 v1 v2 : List Nat}
    (h1 : VdOk jdest v0 v1) (h2 : VdOk jdest v1 v2) : VdOk jdest v0 v2 :=
  ⟨fun x hx => h2.1 x (h1.1 x hx), fun h => h2.2.1 (h1.2.1 h),
   le_trans h2.2.2 h1.2.2⟩

theorem JKeysOk_refl (jdest : List Nat) (t : PTree) (lb : Nat) (hWF : TreeWF t) :
    JKeysOk jdest t lb t :=
  ⟨hWF, fun _ hk => ⟨hk, rfl⟩, fun _ hk => Or.inl hk, fun _ hk hk' => absurd hk hk'⟩

theorem JKeysOk.weaken_lb {jdest : List Nat} {t0 t1 : PTree} {lb lb' : Nat}
    (h : JKeysOk jdest t0 lb' t1) (hle : lb ≤ lb') : JKeysOk jdest t0 lb t1 :=
  ⟨h.1, h.2.1, h.2.2.1, fun k hk hk' => le_trans hle (h.2.2.2 k hk hk')⟩

theorem JKeysOk_trans {jdest : List Nat} {t0 t1 t2 : PTree} {lb lb' : Nat}
    (h1 : JKeysOk jdest t0 lb t1) (h2 : JKeysOk jdest t1 lb' t2)
    (hle : lb ≤ lb') : JKeysOk jdest t0 lb t2 := by
  refine ⟨h2.1, ?_, ?_, ?_⟩
  · intro k hk
    have a1 := h1.2.1 k hk
    have a2 := h2.2.1 k a1.1
    exact ⟨a2.1, a2.2.trans a1.2⟩
  · intro k hk
    rcases h2.2.2.1 k hk with hk1 | hj
    · rcases h1.2.2.1 k hk1 with hk0 | hj
      · exact Or.inl hk0
      · rcases hj with ⟨j, hjm, hjh⟩
        have := (h2.2.1 k hk1).2
        exact Or.inr ⟨j, hjm, this.trans hjh⟩
    · exact Or.inr hj
  · intro k hk hk0
    by_cases hk1 : k ∈ treeKeys t1
    · exact h1.2.2.2 k hk1 hk0
    · exact le_trans hle (h2.2.2.2 k hk hk1)

theorem JKeysOk.toKeysOk {jdest : List Nat} {t0 t1 : PTree} {lb : Nat}
    (h : JKeysOk jdest t0 lb t1) (ownKey : Nat) (ownHead : Option Nat) :
    KeysOk jdest t0 ownKey ownHead lb t1 :=
  ⟨h.1, h.2.1, fun k hk => (h.2.2.1 k hk).elim Or.inl (fun hj => Or.inr (Or.inr hj)),
   h.2.2.2⟩

/-- Contract of one recursive `Prover::path` re-entry at a jumpdest, with
fuel headroom `F`: the call never exhausts fuel, and when it completes, the
visited list, tree shape, branch count and branch-id counter all behave as
stated. -/
def PcallOk (pcall : Nat → PTree → List Nat → Step → Nat → RunOut PathOut)
    (jdest : List Nat) (F : Nat) : Prop :=
  ∀ pid tree vdest stp pc, pc ∈ jdest → Uc jdest vdest < F → TreeWF tree →
    pcall pid tree vdest stp pc ≠ .fuelOut ∧
    (∀ tree' vdest' e, pcall pid tree vdest stp pc = .done (tree', vdest', e) →
      VdOk jdest vdest vdest' ∧
      JKeysOk jdest tree pid tree' ∧
      (treeKeys tree').length ≤ (treeKeys tree).length + 1 +
        (Uc jdest vdest - Uc jdest vdest') ∧
      (∀ p, e = .ok p → pid + 1 ≤ p))

/-- Contract of the jumpdest loop `path_jds`: it never exhausts fuel (given
headroom), old visited entries and branches survive, every new branch starts
at a jumpdest, the branch count grows by at most the number of jumpdests it
freshly visits, and the branch-id counter does not decrease. -/
theorem path_jds_contract
    (pcall : Nat → PTree → List Nat → Step → Nat → RunOut PathOut)
    (oracle : SatOracle) (sol : Solver) (dest : BVT) (stp : Step)
    (jdest : List Nat) (F : Nat) (hpc : PcallOk pcall jdest F) :
    ∀ (jds : List Nat), (∀ j ∈ jds, j ∈ jdest) →
    ∀ pid tree vdest, Uc jdest vdest ≤ F → TreeWF tree →
      Prover.path_jds pcall oracle sol dest stp jds pid tree vdest ≠ .fuelOut ∧
      (∀ pid' tree' vdest',
        Prover.path_jds pcall oracle sol dest stp jds pid tree vdest
          = .done (pid', tree', vdest') →
        VdOk jdest vdest vdest' ∧
        JKeysOk jdest tree (pid + 1) tree' ∧
        (treeKeys tree').length ≤ (treeKeys tree).length +
          (Uc jdest vdest - Uc jdest vdest') ∧
        pid ≤ pid') := by
  intro jds
  induction jds with
  | nil =>
    intro hjds pid tree vdest hU hWF
    refine ⟨by simp [Prover.path_jds], ?_⟩
    intro pid' tree' vdest' hdone
    simp only [Prover.path_jds, RunOut.done.injEq, Prod.mk.injEq] at hdone
    obtain ⟨rfl, rfl, rfl⟩ := hdone
    exact ⟨VdOk_refl jdest vdest, JKeysOk_refl jdest tree (pid + 1) hWF,
      by omega, le_refl pid⟩
  | cons jd rest ih =>
    intro hjds pid tree vdest hU hWF
    have hjd : jd ∈ jdest := hjds jd (by simp)
    have hrest : ∀ j ∈ rest, j ∈ jdest := fun j hj => hjds j (by simp [hj])
    by_cases hguard : oracle (sol ++ [(jd, dest)]) ∧ ¬ vdest.contains jd
    · have hfresh : jd ∉ vdest := by
        have := hguard.2
        simpa using this
      have hUlt : Uc jdest (vdest ++ [jd]) < F :=
        lt_of_lt_of_le (Uc_append_lt jdest vdest jd hjd hfresh) hU
      have hchild := hpc (pid + 1) tree (vdest ++ [jd]) stp jd hjd hUlt hWF
      have hvd1 : VdOk jdest vdest (vdest ++ [jd]) := by
        refine ⟨fun x hx => by simp [hx], fun hnd => ?_, le_of_lt
          (Uc_append_lt jdest vdest jd hjd hfresh)⟩
        refine List.Nodup.append hnd (List.nodup_singleton jd) ?_
        intro x hx hx'
        simp at hx'
        subst hx'
        exact hfresh hx
      cases hch : pcall (pid + 1) tree (vdest ++ [jd]) stp jd with
      | fuelOut => exact absurd hch hchild.1
      | crash =>
        constructor
        · simp only [Prover.path_jds, if_pos hguard, hch]
          intro hcon
          exact RunOut.noConfusion hcon
        · intro pid' tree' vdest' hdone
          simp only [Prover.path_jds, if_pos hguard, hch] at hdone
          exact RunOut.noConfusion hdone
      | done out =>
        obtain ⟨tree1, vdest1, e1⟩ := out
        have hcc := hchild.2 tree1 vdest1 e1 hch
        have hWF1 : TreeWF tree1 := hcc.2.1.1
        have hU1 : Uc jdest vdest1 ≤ F := le_trans hcc.1.2.2 (le_of_lt hUlt)
        have hvd01 : VdOk jdest vdest vdest1 := VdOk_trans hvd1 hcc.1
        cases e1 with
        | ok p =>
          have hp : pid + 2 ≤ p := hcc.2.2.2 p rfl
          have hres := ih hrest p tree1 vdest1 hU1 hWF1
          constructor
          · simp only [Prover.path_jds, if_pos hguard, hch]
            exact hres.1
          · intro pid' tree' vdest' hdone
            simp only [Prover.path_jds, if_pos hguard, hch] at hdone
            have h2 := hres.2 pid' tree' vdest' hdone
            refine ⟨VdOk_trans hvd01 h2.1, ?_, ?_, by omega⟩
            · exact JKeysOk_trans hcc.2.1 (h2.2.1.weaken_lb (by omega)) (le_refl _)
            · have b1 := hcc.2.2.1
              have b2 := h2.2.2.1
              have u1 := hcc.1.2.2
              have u2 := h2.1.2.2
              have ud := Uc_append_lt jdest vdest jd hjd hfresh
              omega
        | error e =>
          have hres := ih hrest pid tree1 vdest1 hU1 hWF1
          constructor
          · simp only [Prover.path_jds, if_pos hguard, hch]
            exact hres.1
          · intro pid' tree' vdest' hdone
            simp only [Prover.path_jds, if_pos hguard, hch] at hdone
            have h2 := hres.2 pid' tree' vdest' hdone
            refine ⟨VdOk_trans hvd01 h2.1, ?_, ?_, h2.2.2.2⟩
            · exact JKeysOk_trans hcc.2.1 (h2.2.1.weaken_lb (le_refl _)) (le_refl _)
            · have b1 := hcc.2.2.1
              have b2 := h2.2.2.1
              have u1 := hcc.1.2.2
              have u2 := h2.1.2.2
              have ud := Uc_append_lt jdest vdest jd hjd hfresh
              omega
    · have hres := ih hrest pid tree vdest hU hWF
      constructor
      · simp only [Prover.path_jds, if_neg hguard]
        exact hres.1
      · intro pid' tree' vdest' hdone
        simp only [Prover.path_jds, if_neg hguard] at hdone
        exact hres.2 pid' tree' vdest' hdone

/-- Contract of the branch handling of a single instruction: fuel is never
exhausted (given headroom); on the fall-through outcome (`inl`) the visited
list, tree and branch-id counter satisfy the usual growth conditions; on the
abort outcome (`inr`) the tree state is returned unchanged with an error. -/
theorem path_jump_contract
    (pcall : Nat → PTree → List Nat → Step → Nat → RunOut PathOut)
    (oracle : SatOracle) (jdest : List Nat) (sol : Solver) (F : Nat)
    (hpc : PcallOk pcall jdest F)
    (instruction : Mnemonic) (pid : Nat) (tree : PTree) (vdest : List Nat)
    (stp : Step) (hU : Uc jdest vdest ≤ F) (hWF : TreeWF tree) :
    Prover.path_jump pcall oracle jdest sol instruction pid tree vdest stp
      ≠ .fuelOut ∧
    (∀ pid1 tree1 vdest1 stp1,
      Prover.path_jump pcall oracle jdest sol instruction pid tree vdest stp
        = .done (.inl (pid1, tree1, vdest1, stp1)) →
      VdOk jdest vdest vdest1 ∧ JKeysOk jdest tree (pid + 1) tree1 ∧
      (treeKeys tree1).length ≤ (treeKeys tree).length +
        (Uc jdest vdest - Uc jdest vdest1) ∧
      pid ≤ pid1) ∧
    (∀ t v e,
      Prover.path_jump pcall oracle jdest sol instruction pid tree vdest stp
        = .done (.inr (t, v, e)) →
      t = tree ∧ v = vdest ∧ ∃ err, e = Except.error err) := by
  have base_inl : VdOk jdest vdest vdest ∧ JKeysOk jdest tree (pid + 1) tree ∧
      (treeKeys tree).length ≤ (treeKeys tree).length +
        (Uc jdest vdest - Uc jdest vdest) ∧ pid ≤ pid :=
    ⟨VdOk_refl jdest vdest, JKeysOk_refl jdest tree (pid + 1) hWF, by omega,
      le_refl pid⟩
  by_cases hj : instruction.op.opcode = OpCodes.Jump ∨
      instruction.op.opcode = OpCodes.Jumpi
  · cases hpeek : stp.stack.peek 0 with
    | error e =>
      refine ⟨?_, ?_, ?_⟩ <;>
        simp only [Prover.path_jump, if_pos hj, hpeek]
      · intro hcon
        exact RunOut.noConfusion hcon
      · intro pid1 tree1 vdest1 stp1 hdone
        simp at hdone
      · intro t v e' hdone
        simp only [RunOut.done.injEq, Sum.inr.injEq, Prod.mk.injEq] at hdone
        obtain ⟨rfl, rfl, rfl⟩ := hdone
        exact ⟨rfl, rfl, e, rfl⟩
    | ok dest =>
      cases hcond : (if instruction.op.opcode = OpCodes.Jumpi
          then stp.stack.peek 1
          else .ok (BVT.const 256 1) : Except RevertReason BVT) with
      | error e =>
        refine ⟨?_, ?_, ?_⟩ <;>
          simp only [Prover.path_jump, if_pos hj, hpeek, hcond]
        · intro hcon
          exact RunOut.noConfusion hcon
        · intro pid1 tree1 vdest1 stp1 hdone
          simp at hdone
        · intro t v e' hdone
          simp only [RunOut.done.injEq, Sum.inr.injEq, Prod.mk.injEq] at hdone
          obtain ⟨rfl, rfl, rfl⟩ := hdone
          exact ⟨rfl, rfl, e, rfl⟩
      | ok condv =>
        cases hic : dest.isConst with
        | false =>
          have hsym : (¬ dest.isConst = true) := by simp [hic]
          have hjds := path_jds_contract pcall oracle sol dest stp jdest F hpc
            jdest (fun j hjm => hjm) pid tree vdest hU hWF
          cases hjr : Prover.path_jds pcall oracle sol dest stp jdest pid tree
              vdest with
          | fuelOut => exact absurd hjr hjds.1
          | crash =>
            refine ⟨?_, ?_, ?_⟩ <;>
              simp only [Prover.path_jump, if_pos hj, hpeek, hcond,
                if_pos hsym, hjr]
            · intro hcon
              exact RunOut.noConfusion hcon
            · intro pid1 tree1 vdest1 stp1 hdone
              exact RunOut.noConfusion hdone
            · intro t v e' hdone
              exact RunOut.noConfusion hdone
          | done out =>
            obtain ⟨pid1, tree1, vdest1⟩ := out
            have hc := hjds.2 pid1 tree1 vdest1 hjr
            refine ⟨?_, ?_, ?_⟩ <;>
              simp only [Prover.path_jump, if_pos hj, hpeek, hcond,
                if_pos hsym, hjr]
            · intro hcon
              exact RunOut.noConfusion hcon
            · intro pid1' tree1' vdest1' stp1' hdone
              simp only [RunOut.done.injEq, Sum.inl.injEq, Prod.mk.injEq] at hdone
              obtain ⟨rfl, rfl, rfl, rfl⟩ := hdone
              exact ⟨hc.1, hc.2.1, hc.2.2.1, hc.2.2.2⟩
            · intro t v e' hdone
              simp at hdone
        | true =>
          have hcn : ¬ (¬ dest.isConst = true) := by simp [hic]
          cases hd64 : dest.asU64 with
          | some d =>
            by_cases hvis : ¬ vdest.contains d
            · have hfresh : d ∉ vdest := by simpa using hvis
              by_cases hisjd : jdest.contains d
              · have hdjd : d ∈ jdest := by simpa using hisjd
                have hUlt : Uc jdest (vdest ++ [d]) < F :=
                  lt_of_lt_of_le (Uc_append_lt jdest vdest d hdjd hfresh) hU
                have hchild := hpc (pid + 1) tree (vdest ++ [d]) stp d hdjd hUlt hWF
                have hvd1 : VdOk jdest vdest (vdest ++ [d]) := by
                  refine ⟨fun x hx => by simp [hx], fun hnd => ?_, le_of_lt
                    (Uc_append_lt jdest vdest d hdjd hfresh)⟩
                  refine List.Nodup.append hnd (List.nodup_singleton d) ?_
                  intro x hx hx'
                  simp at hx'
                  subst hx'
                  exact hfresh hx
                cases hch : pcall (pid + 1) tree (vdest ++ [d]) stp d with
                | fuelOut => exact absurd hch hchild.1
                | crash =>
                  refine ⟨?_, ?_, ?_⟩ <;>
                    simp only [Prover.path_jump, if_pos hj, hpeek, hcond,
                      if_neg hcn, hd64, if_pos hvis, if_pos hisjd, hch]
                  · intro hcon
                    exact RunOut.noConfusion hcon
                  · intro pid1 tree1 vdest1 stp1 hdone
                    exact RunOut.noConfusion hdone
                  · intro t v e' hdone
                    exact RunOut.noConfusion hdone
                | done out =>
                  obtain ⟨tree1, vdest1, e1⟩ := out
                  have hcc := hchild.2 tree1 vdest1 e1 hch
                  have hvd01 : VdOk jdest vdest vdest1 := VdOk_trans hvd1 hcc.1
                  have hkeys : (treeKeys tree1).length ≤ (treeKeys tree).length +
                      (Uc jdest vdest - Uc jdest vdest1) := by
                    have b1 := hcc.2.2.1
                    have u1 := hcc.1.2.2
                    have ud := Uc_append_lt jdest vdest d hdjd hfresh
                    omega
                  cases e1 with
                  | ok p =>
                    have hp : pid + 2 ≤ p := hcc.2.2.2 p rfl
                    refine ⟨?_, ?_, ?_⟩ <;>
                      simp only [Prover.path_jump, if_pos hj, hpeek, hcond,
                        if_neg hcn, hd64, if_pos hvis, if_pos hisjd, hch]
                    · intro hcon
                      exact RunOut.noConfusion hcon
                    · intro pid1 tree1' vdest1' stp1 hdone
                      simp only [RunOut.done.injEq, Sum.inl.injEq,
                        Prod.mk.injEq] at hdone
                      obtain ⟨rfl, rfl, rfl, rfl⟩ := hdone
                      exact ⟨hvd01, hcc.2.1, hkeys, by omega⟩
                    · intro t v e' hdone
                      simp at hdone
                  | error e =>
                    refine ⟨?_, ?_, ?_⟩ <;>
                      simp only [Prover.path_jump, if_pos hj, hpeek, hcond,
                        if_neg hcn, hd64, if_pos hvis, if_pos hisjd, hch]
                    · intro hcon
                      exact RunOut.noConfusion hcon
                    · intro pid1 tree1' vdest1' stp1 hdone
                      simp only [RunOut.done.injEq, Sum.inl.injEq,
                        Prod.mk.injEq] at hdone
                      obtain ⟨rfl, rfl, rfl, rfl⟩ := hdone
                      exact ⟨hvd01, hcc.2.1, hkeys, le_refl pid⟩
                    · intro t v e' hdone
                      simp at hdone
              · refine ⟨?_, ?_, ?_⟩ <;>
                  simp only [Prover.path_jump, if_pos hj, hpeek, hcond,
                    if_neg hcn, hd64, if_pos hvis, if_neg hisjd]
                · intro hcon
                  exact RunOut.noConfusion hcon
                · intro pid1 tree1 vdest1 stp1 hdone
                  simp only [RunOut.done.injEq, Sum.inl.injEq,
                    Prod.mk.injEq] at hdone
                  obtain ⟨rfl, rfl, rfl, rfl⟩ := hdone
                  have hfresh : d ∉ vdest := by simpa using hvis
                  refine ⟨⟨fun x hx => by simp [hx], fun hnd => ?_,
                    Uc_mono jdest vdest (vdest ++ [d])
                      (fun x hx => by simp [hx])⟩,
                    JKeysOk_refl jdest tree (pid + 1) hWF, by omega, le_refl pid⟩
                  refine List.Nodup.append hnd (List.nodup_singleton d) ?_
                  intro x hx hx'
                  simp at hx'
                  subst hx'
                  exact hfresh hx
                · intro t v e' hdone
                  simp at hdone
            · refine ⟨?_, ?_, ?_⟩ <;>
                simp only [Prover.path_jump, if_pos hj, hpeek, hcond,
                  if_neg hcn, hd64, if_neg hvis]
              · intro hcon
                exact RunOut.noConfusion hcon
              · intro pid1 tree1 vdest1 stp1 hdone
                simp only [RunOut.done.injEq, Sum.inl.injEq,
                  Prod.mk.injEq] at hdone
                obtain ⟨rfl, rfl, rfl, rfl⟩ := hdone
                exact base_inl
              · intro t v e' hdone
                simp at hdone
          | none =>
            cases hret : Prover.ret stp with
            | none =>
              refine ⟨?_, ?_, ?_⟩ <;>
                simp only [Prover.path_jump, if_pos hj, hpeek, hcond,
                  if_neg hcn, hd64, hret]
              · intro hcon
                exact RunOut.noConfusion hcon
              · intro pid1 tree1 vdest1 stp1 hdone
                exact RunOut.noConfusion hdone
              · intro t v e' hdone
                exact RunOut.noConfusion hdone
            | some x =>
              cases x with
              | error e =>
                refine ⟨?_, ?_, ?_⟩ <;>
                  simp only [Prover.path_jump, if_pos hj, hpeek, hcond,
                    if_neg hcn, hd64, hret]
                · intro hcon
                  exact RunOut.noConfusion hcon
                · intro pid1 tree1 vdest1 stp1 hdone
                  simp at hdone
                · intro t v e' hdone
                  simp only [RunOut.done.injEq, Sum.inr.injEq,
                    Prod.mk.injEq] at hdone
                  obtain ⟨rfl, rfl, rfl⟩ := hdone
                  exact ⟨rfl, rfl, e, rfl⟩
              | ok stp1 =>
                refine ⟨?_, ?_, ?_⟩ <;>
                  simp only [Prover.path_jump, if_pos hj, hpeek, hcond,
                    if_neg hcn, hd64, hret]
                · intro hcon
                  exact RunOut.noConfusion hcon
                · intro pid1 tree1 vdest1 stp1' hdone
                  simp only [RunOut.done.injEq, Sum.inl.injEq,
                    Prod.mk.injEq] at hdone
                  obtain ⟨rfl, rfl, rfl, rfl⟩ := hdone
                  exact base_inl
                · intro t v e' hdone
                  simp at hdone
  · refine ⟨?_, ?_, ?_⟩ <;>
      simp only [Prover.path_jump, if_neg hj]
    · intro hcon
      exact RunOut.noConfusion hcon
    · intro pid1 tree1 vdest1 stp1 hdone
      simp only [RunOut.done.injEq, Sum.inl.injEq, Prod.mk.injEq] at hdone
      obtain ⟨rfl, rfl, rfl, rfl⟩ := hdone
      exact base_inl
    · intro t v e' hdone
      simp at hdone

/-- Composing the walk up to the first recorded step with the rest of the
walk: the own branch id's first step is fixed once it exists. -/
theorem KeysOk_compose_mid {jdest : List Nat} {tree tree2 tree' : PTree}
    {last_pid : Nat} {oh oh' : Option Nat}
    (hmid : KeysOk jdest tree last_pid oh last_pid tree2)
    (hown2 : last_pid ∈ treeKeys tree2)
    (hrest : KeysOk jdest tree2 last_pid oh' last_pid tree') :
    KeysOk jdest tree last_pid oh last_pid tree' := by
  refine ⟨hrest.1, ?_, ?_, ?_⟩
  · intro k hk
    have a1 := hmid.2.1 k hk
    have a2 := hrest.2.1 k a1.1
    exact ⟨a2.1, a2.2.trans a1.2⟩
  · intro k hk
    rcases hrest.2.2.1 k hk with hk2 | hone | hj
    · have hstab := (hrest.2.1 k hk2).2
      rcases hmid.2.2.1 k hk2 with hk0 | hone | hj
      · exact Or.inl hk0
      · exact Or.inr (Or.inl ⟨hone.1, hstab.trans hone.2⟩)
      · rcases hj with ⟨j, hjm, hjh⟩
        exact Or.inr (Or.inr ⟨j, hjm, hstab.trans hjh⟩)
    · obtain ⟨rfl, _⟩ := hone
      have hstab := (hrest.2.1 k hown2).2
      rcases hmid.2.2.1 k hown2 with hk0 | hone2 | hj
      · exact Or.inl hk0
      · exact Or.inr (Or.inl ⟨hone2.1, hstab.trans hone2.2⟩)
      · rcases hj with ⟨j, hjm, hjh⟩
        exact Or.inr (Or.inr ⟨j, hjm, hstab.trans hjh⟩)
    · exact Or.inr (Or.inr hj)
  · intro k hk hk0
    by_cases hk2 : k ∈ treeKeys tree2
    · exact hmid.2.2.2 k hk2 hk0
    · exact hrest.2.2.2 k hk hk2

/-- Contract of the instruction loop of `Prover::path`: it never exhausts
fuel (given headroom); when it completes, old visited entries and branches
survive with their first steps, the only branch whose first step need not be
a jumpdest is the loop's own (`last_pid`, whose first step is the head of the
walked list), the branch count grows by at most one (the own branch) plus the
number of freshly visited jumpdests, and the returned branch id exceeds the
incoming one. -/
theorem path_go_contract
    (pcall : Nat → PTree → List Nat → Step → Nat → RunOut PathOut)
    (oracle : SatOracle) (jdest : List Nat) (sol : Solver) (last_pid : Nat)
    (F : Nat) (hpc : PcallOk pcall jdest F) :
    ∀ (insts : List Mnemonic) (pid : Nat) (tree : PTree) (vdest : List Nat)
      (stp : Step), Uc jdest vdest ≤ F → TreeWF tree → last_pid ≤ pid →
      Prover.path_go pcall oracle jdest sol last_pid insts pid tree vdest stp
        ≠ .fuelOut ∧
      (∀ tree' vdest' e,
        Prover.path_go pcall oracle jdest sol last_pid insts pid tree vdest stp
          = .done (tree', vdest', e) →
        VdOk jdest vdest vdest' ∧
        KeysOk jdest tree last_pid (insts.head?.map (fun m => m.pc)) last_pid
          tree' ∧
        (treeKeys tree').length ≤ (treeKeys tree).length +
          (if last_pid ∈ treeKeys tree then 0 else 1) +
          (Uc jdest vdest - Uc jdest vdest') ∧
        (∀ p, e = .ok p → pid + 1 ≤ p)) := by
  intro insts
  induction insts with
  | nil =>
    intro pid tree vdest stp hU hWF hlp
    refine ⟨by simp [Prover.path_go], ?_⟩
    intro tree' vdest' e hdone
    simp only [Prover.path_go, RunOut.done.injEq, Prod.mk.injEq] at hdone
    obtain ⟨rfl, rfl, rfl⟩ := hdone
    refine ⟨VdOk_refl jdest vdest,
      (JKeysOk_refl jdest tree last_pid hWF).toKeysOk last_pid _, by omega, ?_⟩
    intro p hp
    cases hp
    omega
  | cons instruction rest ih =>
    intro pid tree vdest stp hU hWF hlp
    have hbr := path_jump_contract pcall oracle jdest sol F hpc instruction pid
      tree vdest stp hU hWF
    cases hjr : Prover.path_jump pcall oracle jdest sol instruction pid tree
        vdest stp with
    | fuelOut => exact absurd hjr hbr.1
    | crash =>
      constructor
      · simp only [Prover.path_go, hjr]
        intro hcon
        exact RunOut.noConfusion hcon
      · intro tree' vdest' e hdone
        simp only [Prover.path_go, hjr] at hdone
        exact RunOut.noConfusion hdone
    | done out =>
      cases out with
      | inr o =>
        obtain ⟨t, v, e0⟩ := o
        have hout := hbr.2.2 t v e0 hjr
        obtain ⟨ht, hv, err, herr⟩ := hout
        subst herr
        rw [ht, hv] at hjr
        constructor
        · simp only [Prover.path_go, hjr]
          intro hcon
          exact RunOut.noConfusion hcon
        · intro tree' vdest' e hdone
          simp only [Prover.path_go, hjr, RunOut.done.injEq, Prod.mk.injEq]
            at hdone
          obtain ⟨rfl, rfl, rfl⟩ := hdone
          refine ⟨VdOk_refl jdest vdest,
            (JKeysOk_refl jdest tree last_pid hWF).toKeysOk last_pid _,
            by omega, ?_⟩
          intro p hp
          exact Except.noConfusion hp
      | inl o =>
        obtain ⟨pid1, tree1, vdest1, stp1⟩ := o
        have hmid := hbr.2.1 pid1 tree1 vdest1 stp1 hjr
        have hWF1 : TreeWF tree1 := hmid.2.1.1
        cases hst : Prover.step stp1 instruction with
        | none =>
          constructor
          · simp only [Prover.path_go, hjr, hst]
            intro hcon
            exact RunOut.noConfusion hcon
          · intro tree' vdest' e hdone
            simp only [Prover.path_go, hjr, hst] at hdone
            exact RunOut.noConfusion hdone
        | some x =>
          cases x with
          | error e0 =>
            constructor
            · simp only [Prover.path_go, hjr, hst]
              intro hcon
              exact RunOut.noConfusion hcon
            · intro tree' vdest' e hdone
              simp only [Prover.path_go, hjr, hst, RunOut.done.injEq,
                Prod.mk.injEq] at hdone
              obtain ⟨rfl, rfl, rfl⟩ := hdone
              refine ⟨hmid.1, (hmid.2.1.weaken_lb (by omega)).toKeysOk last_pid _,
                ?_, ?_⟩
              · have := hmid.2.2.1
                omega
              · intro p hp
                exact Except.noConfusion hp
          | ok stp2 =>
            have hop : stp2.op = instruction := Prover.step_op stp1 instruction
              stp2 hst
            have hWF2 : TreeWF (treeUpd tree1 last_pid sol stp2) :=
              TreeWF_upd tree1 last_pid sol stp2 hWF1
            have hk2 := treeKeys_upd tree1 last_pid sol stp2
            have hmem2 : last_pid ∈ treeKeys (treeUpd tree1 last_pid sol stp2)
                := by
              rw [hk2]
              by_cases hin : last_pid ∈ treeKeys tree1
              · simp [hin]
              · simp [hin]
            have hlen2 : (treeKeys (treeUpd tree1 last_pid sol stp2)).length ≤
                (treeKeys tree1).length + 1 := by
              rw [hk2]
              by_cases hin : last_pid ∈ treeKeys tree1
              · simp [hin]
              · simp [hin]
            have hlen2' : last_pid ∈ treeKeys tree →
                (treeKeys (treeUpd tree1 last_pid sol stp2)).length =
                (treeKeys tree1).length := by
              intro hin0
              have hin1 : last_pid ∈ treeKeys tree1 :=
                (hmid.2.1.2.1 last_pid hin0).1
              rw [hk2]
              simp [hin1]
            have hKmid : KeysOk jdest tree last_pid (some instruction.pc)
                last_pid (treeUpd tree1 last_pid sol stp2) := by
              refine ⟨hWF2, ?_, ?_, ?_⟩
              · intro k hk
                have a1 := hmid.2.1.2.1 k hk
                constructor
                · rw [hk2]
                  by_cases hin : last_pid ∈ treeKeys tree1
                  · simp [hin, a1.1]
                  · simp [hin, a1.1]
                · by_cases hkl : k = last_pid
                  · subst hkl
                    rw [headPcVal_upd_present tree1 k sol stp2 hWF1 a1.1]
                    exact a1.2
                  · rw [headPcVal_upd_other tree1 last_pid k sol stp2 hkl]
                    exact a1.2
              · intro k hk
                by_cases hkl : k = last_pid
                · subst hkl
                  by_cases hin1 : k ∈ treeKeys tree1
                  · rcases hmid.2.1.2.2.1 k hin1 with hk0 | hj
                    · exact Or.inl hk0
                    · rcases hj with ⟨j, hjm, hjh⟩
                      refine Or.inr (Or.inr ⟨j, hjm, ?_⟩)
                      rw [headPcVal_upd_present tree1 k sol stp2 hWF1 hin1]
                      exact hjh
                  · refine Or.inr (Or.inl ⟨rfl, ?_⟩)
                    rw [headPcVal_upd_absent tree1 k sol stp2 hin1, hop]
                · have hk1 : k ∈ treeKeys tree1 := by
                    rw [hk2] at hk
                    by_cases hin : last_pid ∈ treeKeys tree1
                    · rw [if_pos hin] at hk
                      exact hk
                    · rw [if_neg hin] at hk
                      rcases List.mem_append.mp hk with hk | hk
                      · exact hk
                      · simp at hk
                        exact absurd hk hkl
                  rcases hmid.2.1.2.2.1 k hk1 with hk0 | hj
                  · exact Or.inl hk0
                  · rcases hj with ⟨j, hjm, hjh⟩
                    refine Or.inr (Or.inr ⟨j, hjm, ?_⟩)
                    rw [headPcVal_upd_other tree1 last_pid k sol stp2 hkl]
                    exact hjh
              · intro k hk hk0
                by_cases hkl : k = last_pid
                · omega
                · have hk1 : k ∈ treeKeys tree1 := by
                    rw [hk2] at hk
                    by_cases hin : last_pid ∈ treeKeys tree1
                    · rw [if_pos hin] at hk
                      exact hk
                    · rw [if_neg hin] at hk
                      rcases List.mem_append.mp hk with hk | hk
                      · exact hk
                      · simp at hk
                        exact absurd hk hkl
                  have := hmid.2.1.2.2.2 k hk1 hk0
                  omega
            by_cases hhr : stp2.ret.has_ret
            · constructor
              · simp only [Prover.path_go, hjr, hst, if_pos hhr]
                intro hcon
                exact RunOut.noConfusion hcon
              · intro tree' vdest' e hdone
                simp only [Prover.path_go, hjr, hst, if_pos hhr,
                  RunOut.done.injEq, Prod.mk.injEq] at hdone
                obtain ⟨rfl, rfl, rfl⟩ := hdone
                refine ⟨hmid.1, hKmid, ?_, ?_⟩
                · by_cases hin0 : last_pid ∈ treeKeys tree
                  · have := hlen2' hin0
                    have := hmid.2.2.1
                    simp only [if_pos hin0]
                    omega
                  · have := hmid.2.2.1
                    simp only [if_neg hin0]
                    omega
                · intro p hp
                  cases hp
                  have := hmid.2.2.2
                  omega
            · have hres := ih pid1 (treeUpd tree1 last_pid sol stp2) vdest1 stp2
                (le_trans hmid.1.2.2 hU) hWF2 (by omega)
              constructor
              · simp only [Prover.path_go, hjr, hst, if_neg hhr]
                exact hres.1
              · intro tree' vdest' e hdone
                simp only [Prover.path_go, hjr, hst, if_neg hhr] at hdone
                have hr := hres.2 tree' vdest' e hdone
                refine ⟨VdOk_trans hmid.1 hr.1, ?_, ?_, ?_⟩
                · exact KeysOk_compose_mid hKmid hmem2 hr.2.1
                · have c1 := hr.2.2.1
                  rw [if_pos hmem2] at c1
                  have c2 := hmid.2.2.1
                  have u1 := hmid.1.2.2
                  have u2 := hr.1.2.2
                  by_cases hin0 : last_pid ∈ treeKeys tree
                  · have := hlen2' hin0
                    simp only [if_pos hin0]
                    omega
                  · simp only [if_neg hin0]
                    omega
                · intro p hp
                  have := hr.2.2.2 p hp
                  have := hmid.2.2.2
                  omega

/-- Contract of `Prover::path` itself, by induction on fuel: a re-entry at a
jumpdest with fuel exceeding the number of unvisited jumpdests satisfies the
recursive-call contract.  This is the termination argument of the source:
every re-entry consumes a fresh jumpdest, so the recursion depth is bounded
by the jumpdest count. -/
theorem path_PcallOk (oracle : SatOracle) (jdest : List Nat)
    (code : List Mnemonic) (Hsort : code.Pairwise (fun a b => a.pc < b.pc))
    (Hjd : ∀ j ∈ jdest, ∃ m ∈ code, m.pc = j) :
    ∀ fuel, PcallOk (Prover.path oracle jdest code fuel) jdest fuel := by
  intro fuel
  induction fuel with
  | zero =>
    intro pid tree vdest stp pc hpcm hU hWF
    omega
  | succ fuel ih =>
    intro pid tree vdest stp pc hpcm hU hWF
    have hgo := path_go_contract (Prover.path oracle jdest code fuel) oracle
      jdest
      (match treeGet tree pid with
        | some e => e.1
        | none => []) pid fuel ih
      (code.dropWhile (fun ins => ins.pc < pc)) pid tree vdest stp
      (by omega) hWF (le_refl pid)
    obtain ⟨m, mrest, hdw, hmpc⟩ := dropWhile_head_pc code pc Hsort
      (Hjd pc hpcm)
    constructor
    · simp only [Prover.path]
      exact hgo.1
    · intro tree' vdest' e hdone
      simp only [Prover.path] at hdone
      have hr := hgo.2 tree' vdest' e hdone
      refine ⟨hr.1, ?_, ?_, hr.2.2.2⟩
      · have hK := hr.2.1
        refine ⟨hK.1, hK.2.1, ?_, hK.2.2.2⟩
        intro k hk
        rcases hK.2.2.1 k hk with hk0 | hone | hj
        · exact Or.inl hk0
        · refine Or.inr ⟨pc, hpcm, ?_⟩
          rw [hone.2, hdw]
          simp [hmpc]
        · exact Or.inr hj
      · have := hr.2.2.1
        by_cases hin : pid ∈ treeKeys tree
        · rw [if_pos hin] at this
          omega
        · rw [if_neg hin] at this
          omega

/-- Top-level contract of `Prover::walk` on decoded bytecode: with the fuel
chosen in the model (`|jumpdests| + 1`) the exploration never runs out of
fuel, and on success the tree and visited list satisfy the global bounds. -/
theorem walk_contract (oracle : SatOracle) (B : List Nat) :
    Prover.walk oracle (to_mnemonics B) ≠ .fuelOut ∧
    (∀ tree p,
      Prover.walk oracle (to_mnemonics B) = .done (.ok (tree, p)) →
      TreeWF tree ∧
      (treeKeys tree).length ≤ (get_jumpdest (to_mnemonics B)).length + 1 ∧
      (∀ k ∈ treeKeys tree, k ≠ 0 →
        ∃ j ∈ get_jumpdest (to_mnemonics B), headPcVal tree k = some j)) := by
  have Hsort : (to_mnemonics B).Pairwise (fun a b => a.pc < b.pc) :=
    to_mnemonics_go_sorted B (B.length + 1) 0
  have Hjd : ∀ j ∈ get_jumpdest (to_mnemonics B),
      ∃ m ∈ to_mnemonics B, m.pc = j :=
    fun j hj => get_jumpdest_mem_pc (to_mnemonics B) j hj
  set code := to_mnemonics B with hcode
  set jdest := get_jumpdest code with hjdest
  have hpcall := path_PcallOk oracle jdest code Hsort Hjd jdest.length
  cases hhead : code.head? with
  | none =>
    constructor
    · simp only [Prover.walk, ← hjdest, hhead]
      intro hcon
      exact RunOut.noConfusion hcon
    · intro tree p hdone
      simp only [Prover.walk, ← hjdest, hhead] at hdone
      exact RunOut.noConfusion hdone
  | some first =>
    have hWF0 : TreeWF ([] : PTree) := by
      intro k e hget
      simp [treeGet] at hget
    have hgo := path_go_contract (Prover.path oracle jdest code jdest.length)
      oracle jdest
      (match treeGet [] 0 with
        | some e => e.1
        | none => []) 0 jdest.length hpcall
      (code.dropWhile (fun ins => ins.pc < 0)) 0 [] [] 
      { op := first, stack := EVMStack.new, memory := EVMMemory.new,
        ret := Ret.new }
      (by
        have := Uc_le_length jdest ([] : List Nat)
        omega) hWF0 (le_refl 0)
    constructor
    · simp only [Prover.walk, ← hjdest, hhead, Prover.path]
      cases hp : Prover.path_go (Prover.path oracle jdest code jdest.length)
          oracle jdest
          (match treeGet [] 0 with
            | some e => e.1
            | none => []) 0
          (code.dropWhile (fun ins => ins.pc < 0)) 0 [] []
          { op := first, stack := EVMStack.new, memory := EVMMemory.new,
            ret := Ret.new } with
      | fuelOut => exact absurd hp hgo.1
      | crash =>
        intro hcon
        exact RunOut.noConfusion hcon
      | done out =>
        obtain ⟨t1, v1, e1⟩ := out
        cases e1 <;>
          · intro hcon
            exact RunOut.noConfusion hcon
    · intro tree p hdone
      simp only [Prover.walk, ← hjdest, hhead, Prover.path] at hdone
      cases hp : Prover.path_go (Prover.path oracle jdest code jdest.length)
          oracle jdest
          (match treeGet [] 0 with
            | some e => e.1
            | none => []) 0
          (code.dropWhile (fun ins => ins.pc < 0)) 0 [] []
          { op := first, stack := EVMStack.new, memory := EVMMemory.new,
            ret := Ret.new } with
      | fuelOut => exact absurd hp hgo.1
      | crash =>
        rw [hp] at hdone
        exact RunOut.noConfusion hdone
      | done out =>
        obtain ⟨t1, v1, e1⟩ := out
        cases e1 with
        | error e0 =>
          rw [hp] at hdone
          simp at hdone
        | ok p0 =>
          rw [hp] at hdone
          simp only [RunOut.done.injEq, Except.ok.injEq, Prod.mk.injEq]
            at hdone
          obtain ⟨rfl, rfl⟩ := hdone
          have hr := hgo.2 t1 v1 (.ok p0) hp
          have hK := hr.2.1
          refine ⟨hK.1, ?_, ?_⟩
          · have hb := hr.2.2.1
            have hUb := Uc_le_length jdest ([] : List Nat)
            have hU1 : Uc jdest v1 ≤ Uc jdest [] := hr.1.2.2
            have h0 : (treeKeys ([] : PTree)).length = 0 := rfl
            have h1 : (if (0 : Nat) ∈ treeKeys ([] : PTree) then (0 : Nat)
                else 1) = 1 := by simp [treeKeys]
            rw [h0, h1] at hb
            omega
          · intro k hk hk0
            rcases hK.2.2.1 k hk with hk1 | hone | hj
            · simp [treeKeys] at hk1
            · exact absurd hone.1 hk0
            · exact hj

theorem Uc_nil (jdest : List Nat) : Uc jdest [] = jdest.length := by
  unfold Uc
  simp

theorem Uc_filter_split (jdest vdest : List Nat) :
    Uc jdest vdest + (jdest.filter (fun j => decide (j ∈ vdest))).length
      = jdest.length := by
  rw [Uc_eq_filter]
  induction jdest with
  | nil => simp
  | cons j rest ih =>
    by_cases hj : j ∈ vdest
    · rw [List.filter_cons_of_neg (by simp [hj]), List.filter_cons_of_pos (by simp [hj])]
      simp only [List.length_cons]
      omega
    · rw [List.filter_cons_of_pos (by simp [hj]), List.filter_cons_of_neg (by simp [hj])]
      simp only [List.length_cons]
      omega

/-! ### Concrete-run infrastructure -/

/-- Equality of Rust `Result` values is decidable componentwise (needed to
evaluate whole-run results by `decide`). -/
instance {e a : Type} [DecidableEq e] [DecidableEq a] : DecidableEq (Except e a) := fun x y =>
  match x, y with
  | .ok u, .ok v =>
    if h : u = v then isTrue (by rw [h]) else isFalse (fun hc => by injection hc; contradiction)
  | .error u, .error v =>
    if h : u = v then isTrue (by rw [h]) else isFalse (fun hc => by injection hc; contradiction)
  | .ok _, .error _ => isFalse (fun hc => Except.noConfusion hc)
  | .error _, .ok _ => isFalse (fun hc => Except.noConfusion hc)

set_option synthInstance.maxSize 2048

/-- `PRes` unfolds to `Option (Except RevertReason X)`; equality of results is
decidable. -/
instance {X : Type} [DecidableEq X] : DecidableEq (PRes X) :=
  inferInstanceAs (DecidableEq (Option (Except RevertReason X)))

/-- Decision oracle of the concrete runs below: `sol.check()` reports SAT for
every assertion set (on the concrete programs below every queried jump
constraint is indeed satisfiable). -/
def oracleTrue : SatOracle := fun _ => true

/-- Step trace recorded under branch id `k`. -/
def branchSteps (t : PTree) (k : Nat) : List Step :=
  match treeGet t k with
  | some e => e.2
  | none => []

/-- Tree of a completed successful `Prover.run` (`[]` otherwise). -/
def runTree (oracle : SatOracle) (code : List Mnemonic) : PTree :=
  match Prover.run oracle code with
  | .done (.ok t) => t
  | _ => []

/-- Tree of a completed successful `Prover.walk` (`[]` otherwise). -/
def walkTree (oracle : SatOracle) (code : List Mnemonic) : PTree :=
  match Prover.walk oracle code with
  | .done (.ok (t, _)) => t
  | _ => []

/-- Step a successful `Prover.step` produced (`none` on panic or `Err`). -/
def stepOut (r : PRes Step) : Option Step :=
  match r with
  | some (.ok s) => some s
  | _ => none

/-- Error component of a `Prover.path` result. -/
def pathOutErr (r : RunOut PathOut) : Option (Except RevertReason Nat) :=
  match r with
  | .done (_, _, e) => some e
  | _ => none

/-- Contract of the trunk `Prover.path` call that `Prover.walk` makes (branch
id 0, pc 0, empty tree, empty visited list), with the visited list exposed:
fuel `|jumpdests| + 1` is never exhausted, and on completion the visited
list holds no duplicate and the number of branches is at most the number of
visited jumpdests plus one. -/
theorem path_zero_contract (oracle : SatOracle) (B : List Nat) (stp : Step) :
    Prover.path oracle (get_jumpdest (to_mnemonics B)) (to_mnemonics B)
        ((get_jumpdest (to_mnemonics B)).length + 1) 0 [] [] stp 0 ≠ .fuelOut ∧
    (∀ tree' vdest' e,
      Prover.path oracle (get_jumpdest (to_mnemonics B)) (to_mnemonics B)
          ((get_jumpdest (to_mnemonics B)).length + 1) 0 [] [] stp 0
        = .done (tree', vdest', e) →
      vdest'.Nodup ∧
      (treeKeys tree').length ≤
        ((get_jumpdest (to_mnemonics B)).filter
          (fun j => decide (j ∈ vdest'))).length + 1) := by
  have Hsort : (to_mnemonics B).Pairwise (fun a b => a.pc < b.pc) :=
    to_mnemonics_go_sorted B (B.length + 1) 0
  have Hjd : ∀ j ∈ get_jumpdest (to_mnemonics B),
      ∃ m ∈ to_mnemonics B, m.pc = j :=
    fun j hj => get_jumpdest_mem_pc (to_mnemonics B) j hj
  set code := to_mnemonics B with hcode
  set jdest := get_jumpdest code with hjdest
  have hpcall := path_PcallOk oracle jdest code Hsort Hjd jdest.length
  have hWF0 : TreeWF ([] : PTree) := by
    intro k e hget
    simp [treeGet] at hget
  have hgo := path_go_contract (Prover.path oracle jdest code jdest.length)
    oracle jdest
    (match treeGet [] 0 with
      | some e => e.1
      | none => []) 0 jdest.length hpcall
    (code.dropWhile (fun ins => ins.pc < 0)) 0 [] [] stp
    (by
      have := Uc_le_length jdest ([] : List Nat)
      omega) hWF0 (le_refl 0)
  constructor
  · simp only [Prover.path]
    exact hgo.1
  · intro tree' vdest' e hdone
    simp only [Prover.path] at hdone
    have hr := hgo.2 tree' vdest' e hdone
    refine ⟨hr.1.2.1 List.nodup_nil, ?_⟩
    have hb := hr.2.2.1
    have h0 : (treeKeys ([] : PTree)).length = 0 := rfl
    have h1 : (if (0 : Nat) ∈ treeKeys ([] : PTree) then (0 : Nat) else 1) = 1 := by
      simp [treeKeys]
    rw [h0, h1] at hb
    have hsplit := Uc_filter_split jdest vdest'
    have hnil := Uc_nil jdest
    omega

/-! ### Claim theorems -/

/-- Step state with an empty stack (about to execute its first instruction). -/
def stpEmpty : Step :=
  { op := ⟨0, 0, []⟩, stack := EVMStack.new, memory := EVMMemory.new, ret := Ret.new }

/-- Step state whose stack holds offset 0 (top) over length 0. -/
def stpRetZero : Step :=
  { op := ⟨0, 0, []⟩, stack := ⟨⟨[BVT.const 256 0, BVT.const 256 0]⟩⟩,
    memory := EVMMemory.new, ret := Ret.new }

/-- Step state whose stack holds the word 1 (bottom) and the word 2 (top). -/
def stpTwo : Step :=
  { op := ⟨0, 0, []⟩, stack := ⟨⟨[BVT.const 256 1, BVT.const 256 2]⟩⟩,
    memory := EVMMemory.new, ret := Ret.new }

/-- C4: contrary to the claim, executing STOP leaves the returned flag (and
`has_ret`) false, and executing RETURN with a zero length clears `ret.val`
but again leaves the returned flag and `has_ret` false — `Prover::step` sets
no `returned` flag on either opcode, so the walker does not see a return. -/
theorem C4_stop_return_set_no_returned_flag :
    ((stepOut (Prover.step stpEmpty ⟨0, 0x00, []⟩)).map
        (fun s => (s.ret.ret, s.ret.has_ret)) = some (false, false)) ∧
    ((stepOut (Prover.step stpRetZero ⟨0, 0xF3, []⟩)).map
        (fun s => (s.ret.val, s.ret.ret, s.ret.has_ret))
      = some (none, false, false)) := by decide

/-- C5: contrary to the claim, SSTORE and SLOAD are unimplemented
(`op => todo!()`): `Prover::step` panics on both opcodes whatever the state,
a program reaching SSTORE crashes the whole run, and `EVMStorage::sstore`
never records anything (it either panics on a width assertion or returns the
map unchanged). -/
theorem C5_sstore_sload_unimplemented :
    (∀ stp, Prover.step stp ⟨4, 0x55, []⟩ = none) ∧
    (∀ stp, Prover.step stp ⟨2, 0x54, []⟩ = none) ∧
    Prover.run oracleTrue (to_mnemonics [0x60, 0x01, 0x60, 0x02, 0x55, 0x00])
      = .crash ∧
    (∀ st k v, EVMStorage.sstore st k v = none ∨
      EVMStorage.sstore st k v = some st) := by
  refine ⟨fun stp => rfl, fun stp => rfl, by decide, ?_⟩
  intro st k v
  unfold EVMStorage.sstore
  by_cases h : k.width = 256 ∧ v.width = 256
  · right
    rw [if_pos h]
  · left
    rw [if_neg h]

/-- C6: decoding any byte sequence with `to_mnemonics` advances the pc by
exactly the length of the input, and re-concatenating each record's opcode
byte with its immediate bytes reproduces the input byte for byte. -/
theorem C6_decoder_round_trip (B : List Nat) :
    mnConcat (to_mnemonics B) = B ∧ mnAdvance (to_mnemonics B) = B.length := by
  have h := to_mnemonics_go_spec B (B.length + 1) 0 (by omega)
  unfold to_mnemonics
  simpa using h

/-- C7: contrary to the claim, `mstore(8, 1)` on a fresh memory followed by
`mload(8)` returns the 256-bit constant 0, not the stored value 1:
`Memory::set` ignores the offset when the memory is empty, so the value lands
at offset 0 and the load reads past it. -/
theorem C7_mstore_mload_roundtrip_fails :
    ((EVMMemory.new.mstore 8 (BVT.const 256 1)).bind
        (fun m => (m.mload 8).map (fun p => p.1)))
      = some (BVT.const 256 0) ∧
    BVT.const 256 0 ≠ BVT.const 256 1 := by decide

/-- C8: contrary to the claim, on the two-word stack [1, 2] (2 on top) DUP1
pushes a copy of the BOTTOM word 1 (`Stack::dupn` indexes the backing `Vec`
from the bottom), and SWAP1 leaves the stack unchanged (`Stack::swapn` swaps
the two bottom-indexed slots 0 and n = 0, i.e. a slot with itself). -/
theorem C8_dupn_swapn_index_from_bottom :
    ((stepOut (Prover.step stpTwo ⟨0, 0x80, []⟩)).map (fun s => s.stack.stack.data)
      = some [BVT.const 256 1, BVT.const 256 2, BVT.const 256 1]) ∧
    [BVT.const 256 1, BVT.const 256 2, BVT.const 256 1]
      ≠ [BVT.const 256 1, BVT.const 256 2, BVT.const 256 2] ∧
    ((stepOut (Prover.step stpTwo ⟨0, 0x90, []⟩)).map (fun s => s.stack.stack.data)
      = some [BVT.const 256 1, BVT.const 256 2]) ∧
    [BVT.const 256 1, BVT.const 256 2] ≠ [BVT.const 256 2, BVT.const 256 1] := by
  decide

/-- C9: contrary to the claim, `pop64` and `pop32` PANIC (`as_u64().unwrap()`
on a symbolic extract) when the popped 256-bit term is not a numeral, instead
of returning `None`; on numerals they do behave as claimed (low bits when the
high bits are zero, `None` otherwise). -/
theorem C9_pop64_pop32_panic_on_symbolic :
    EVMStack.pop64 ⟨⟨[BVT.app0 "calldatasize" [] 256]⟩⟩ = none ∧
    EVMStack.pop32 ⟨⟨[BVT.app0 "calldatasize" [] 256]⟩⟩ = none ∧
    EVMStack.pop64 ⟨⟨[BVT.const 256 5]⟩⟩ = some (.ok (some 5, EVMStack.new)) ∧
    EVMStack.pop64 ⟨⟨[BVT.const 256 (2 ^ 64)]⟩⟩
      = some (.ok (none, EVMStack.new)) := by decide

/-- C10: on empty bytecode the decoded instruction list is empty and the
prover PANICS (`code.first().unwrap()` in `Prover::walk`) instead of
returning a tree or a `RevertReason`: both `walk` and `run` crash. -/
theorem C10_empty_code_panics (oracle : SatOracle) :
    Prover.walk oracle (to_mnemonics []) = .crash ∧
    Prover.run oracle (to_mnemonics []) = .crash :=
  ⟨rfl, rfl⟩

/-- C1: for EVERY input program and oracle the explorer terminates: neither
`walk` nor the trunk `path` call it makes (for any starting step) ever runs
out of the modelled fuel (one unit per `Prover::path` re-entry,
`|jumpdests| + 1` in total — the model's rendering of the source's
termination argument).  Moreover, whenever a run completes, the branch
entries of the tree number at most the jumpdests plus one (the trunk), and
the visited list ends with no duplicate — each jumpdest is entered as a
branch target at most once — with the branch entries at most the visited
jumpdests plus one. -/
theorem C1_explorer_terminates_with_branch_bound
    (oracle : SatOracle) (B : List Nat) (stp : Step) :
    Prover.walk oracle (to_mnemonics B) ≠ .fuelOut ∧
    Prover.path oracle (get_jumpdest (to_mnemonics B)) (to_mnemonics B)
        ((get_jumpdest (to_mnemonics B)).length + 1) 0 [] [] stp 0
      ≠ .fuelOut ∧
    (∀ tree p, Prover.walk oracle (to_mnemonics B) = .done (.ok (tree, p)) →
      (treeKeys tree).length ≤ (get_jumpdest (to_mnemonics B)).length + 1) ∧
    (∀ tree' vdest' e,
      Prover.path oracle (get_jumpdest (to_mnemonics B)) (to_mnemonics B)
          ((get_jumpdest (to_mnemonics B)).length + 1) 0 [] [] stp 0
        = .done (tree', vdest', e) →
      vdest'.Nodup ∧
      (treeKeys tree').length ≤
        ((get_jumpdest (to_mnemonics B)).filter
          (fun j => decide (j ∈ vdest'))).length + 1) := by
  obtain ⟨hnf, hok⟩ := walk_contract oracle B
  obtain ⟨hznf, hz⟩ := path_zero_contract oracle B stp
  exact ⟨hnf, hznf, fun tree p hwalk => (hok tree p hwalk).2.1, hz⟩

/-- C2 (amended): a control transfer is ever taken only to a pc of the
static jumpdest set — on any completed walk, every branch entry other than
the trunk starts at a decoded JUMPDEST pc.  (The claimed revert-and-stop on a
concrete non-jumpdest destination is refuted by the counterexample.) -/
theorem C2_amended_branches_only_at_jumpdests
    (oracle : SatOracle) (B : List Nat) (tree : PTree) (p k : Nat)
    (hwalk : Prover.walk oracle (to_mnemonics B) = .done (.ok (tree, p)))
    (hk : k ∈ treeKeys tree) (hk0 : k ≠ 0) :
    ∃ j ∈ get_jumpdest (to_mnemonics B), headPcVal tree k = some j :=
  ((walk_contract oracle B).2 tree p hwalk).2.2 k hk hk0

/-- Witness of the amended C2 on PUSH1 4; JUMP; INVALID; JUMPDEST; STOP
(bytecode 0x600456FE5B00): branch 1 starts at the jumpdest pc 4. -/
theorem C2_amended_branches_only_at_jumpdests_witness :
    ∃ j ∈ get_jumpdest (to_mnemonics [0x60, 0x04, 0x56, 0xFE, 0x5B, 0x00]),
      headPcVal (walkTree oracleTrue
        (to_mnemonics [0x60, 0x04, 0x56, 0xFE, 0x5B, 0x00])) 1 = some j :=
  C2_amended_branches_only_at_jumpdests oracleTrue
    [0x60, 0x04, 0x56, 0xFE, 0x5B, 0x00]
    (walkTree oracleTrue (to_mnemonics [0x60, 0x04, 0x56, 0xFE, 0x5B, 0x00]))
    3 1 (by decide) (by decide) (by decide)

/-- C2 (counterexample): on PUSH1 3; JUMP; STOP (bytecode 0x60035600) the
JUMP destination 3 is a concrete value outside the (empty) jumpdest set, yet
no revert happens and walking does not stop: the run completes, the trunk
records all three steps — the STOP after the JUMP included — and no step has
the reverted flag set. -/
theorem C2_counterexample_nonjumpdest_jump_falls_through :
    Prover.run oracleTrue (to_mnemonics [0x60, 0x03, 0x56, 0x00])
      = .done (.ok (runTree oracleTrue (to_mnemonics [0x60, 0x03, 0x56, 0x00]))) ∧
    get_jumpdest (to_mnemonics [0x60, 0x03, 0x56, 0x00]) = [] ∧
    (branchSteps (runTree oracleTrue (to_mnemonics [0x60, 0x03, 0x56, 0x00])) 0).map
        (fun s => s.op.pc) = [0, 2, 3] ∧
    (∀ s ∈ branchSteps (runTree oracleTrue (to_mnemonics [0x60, 0x03, 0x56, 0x00])) 0,
      s.ret.rev = false) := by decide

/-- C3 (amended): an error on the trunk (branch id 0) propagates out of
`Prover::run` — concretely, PUSH0; POP; POP (0x5F5050) returns
`StackUnderflow`, while 0x600160065F5B50 completes — but an error inside a
spawned branch is swallowed by the `if let Ok` around the recursive call
WITHOUT marking the branch reverted (see the counterexample). -/
theorem C3_amended_trunk_error_propagates
    (oracle : SatOracle) (code : List Mnemonic) (e : RevertReason)
    (hwalk : Prover.walk oracle code = .done (.error e)) :
    Prover.run oracle code = .done (.error e) ∧
    Prover.run oracleTrue (to_mnemonics [0x5F, 0x50, 0x50])
      = .done (.error .StackUnderflow) ∧
    Prover.run oracleTrue (to_mnemonics [0x60, 0x01, 0x60, 0x06, 0x5F, 0x5B, 0x50])
      = .done (.ok (runTree oracleTrue
          (to_mnemonics [0x60, 0x01, 0x60, 0x06, 0x5F, 0x5B, 0x50]))) := by
  refine ⟨?_, by decide, by decide⟩
  unfold Prover.run
  rw [hwalk]

/-- Witness of the amended C3 at bytecode 0x5F5050. -/
theorem C3_amended_trunk_error_propagates_witness :
    Prover.run oracleTrue (to_mnemonics [0x5F, 0x50, 0x50])
      = .done (.error .StackUnderflow) ∧
    Prover.run oracleTrue (to_mnemonics [0x5F, 0x50, 0x50])
      = .done (.error .StackUnderflow) ∧
    Prover.run oracleTrue (to_mnemonics [0x60, 0x01, 0x60, 0x06, 0x5F, 0x5B, 0x50])
      = .done (.ok (runTree oracleTrue
          (to_mnemonics [0x60, 0x01, 0x60, 0x06, 0x5F, 0x5B, 0x50]))) :=
  C3_amended_trunk_error_propagates oracleTrue (to_mnemonics [0x5F, 0x50, 0x50])
    .StackUnderflow (by decide)

/-- First recorded trunk step of bytecode 0x600456FE5B5050 (PUSH1 4 executed,
the word 4 on the stack), as `Prover::path` passes it to the recursive branch
call at the JUMP. -/
def s1C3 : Step :=
  { op := { pc := 0, op := 0x60, pushes := [4] },
    stack := ⟨⟨[BVT.const 256 4]⟩⟩, memory := EVMMemory.new, ret := Ret.new }

/-- C3 (counterexample): on PUSH1 4; JUMP; INVALID; JUMPDEST; POP; POP
(bytecode 0x600456FE5B5050) the branch spawned at jumpdest 4 underflows the
stack at the second POP — the recursive `path` call for it (branch id 1,
entered from the trunk state `s1C3` with 4 marked visited) returns
`Err(StackUnderflow)` — yet `run` completes successfully and NO step of
branch 1 is marked reverted: the error is dropped, the branch is not marked. -/
theorem C3_counterexample_branch_error_swallowed_unmarked :
    pathOutErr (Prover.path oracleTrue [4]
        (to_mnemonics [0x60, 0x04, 0x56, 0xFE, 0x5B, 0x50, 0x50]) 1 1
        [(0, ([], [s1C3]))] [4] s1C3 4)
      = some (.error .StackUnderflow) ∧
    Prover.run oracleTrue (to_mnemonics [0x60, 0x04, 0x56, 0xFE, 0x5B, 0x50, 0x50])
      = .done (.ok (runTree oracleTrue
          (to_mnemonics [0x60, 0x04, 0x56, 0xFE, 0x5B, 0x50, 0x50]))) ∧
    (branchSteps (runTree oracleTrue
        (to_mnemonics [0x60, 0x04, 0x56, 0xFE, 0x5B, 0x50, 0x50])) 1).map
      (fun s => s.op.pc) = [4, 5] ∧
    (∀ s ∈ branchSteps (runTree oracleTrue
        (to_mnemonics [0x60, 0x04, 0x56, 0xFE, 0x5B, 0x50, 0x50])) 1,
      s.ret.rev = false) := by decide
